import Mathlib

/-!
# Verification of the `rmq` library (naive, sparse, ±1 and optimal RMQ; LCA)

Shallow embedding of the C++ sources in `src/`:

* `naive_rmq.hpp`   — `<O(n²),O(1)>` RMQ, a DP table (`naiveTable`, `naiveQuery`);
* `sparse_rmq.hpp`  — `<O(n log n),O(1)>` sparse-table RMQ (`sparseTable`, `sparseQuery`);
* `pm_rmq.hpp`      — `<O(n),O(1)>` ±1 RMQ by block decomposition (`pmQuery`);
* `tree.hpp`/`lca.hpp` — Euler-tour LCA over the ±1 RMQ (`Tree`, `euler`, `levelL`, `lcaQuery`);
* `opt_rmq.hpp`     — general RMQ via the Cartesian tree and LCA (`cartesianTree`, `optQuery`).

The input sequence is modelled as a total function `A : ℕ → ℤ` together with an
explicit length `n`; all public results are 0-based offsets, upper bounds are
exclusive, exactly as in the C++ (`rmq::query_offset`).  The C++ precomputes its
DP tables at construction time and queries are pure table lookups; here the
tables are modelled as the recursive functions that the fill loops compute, so a
query is the same pure function of the input that the C++ query is of its
tables.
-/

namespace RMQSpec

/-! ## Integer base-2 logarithm

The sources compute `floor(log2 n)` (`std::log2` on a positive integer).
`ilog2` is a structurally recursive (hence kernel-evaluable) version of
`Nat.log2`; `ilog2_eq_log2` identifies the two. -/

def ilog2Aux : ℕ → ℕ → ℕ
  | 0, _ => 0
  | fuel + 1, n => if n ≤ 1 then 0 else ilog2Aux fuel (n / 2) + 1

def ilog2 (n : ℕ) : ℕ := ilog2Aux n n

theorem ilog2Aux_eq_log2 : ∀ fuel n, n ≤ fuel → ilog2Aux fuel n = Nat.log2 n := by
  intro fuel
  induction fuel with
  | zero =>
    intro n hn
    have : n = 0 := by omega
    subst this
    simp [ilog2Aux, Nat.log2]
  | succ fuel ih =>
    intro n hn
    by_cases h1 : n ≤ 1
    · rw [Nat.log2, if_neg (by omega)]
      simp [ilog2Aux, h1]
    · have h2 : 2 ≤ n := by omega
      have hhalf : n / 2 ≤ fuel := by omega
      rw [Nat.log2]
      rw [if_pos h2]
      simp only [ilog2Aux, if_neg h1]
      rw [ih (n / 2) hhalf]

theorem ilog2_eq_log2 (n : ℕ) : ilog2 n = Nat.log2 n :=
  ilog2Aux_eq_log2 n n le_rfl

/-! ## naive_rmq (src/naive_rmq.hpp)

`naiveTable A l i` is `_arr[l][i]`: the index of the minimum of `A[i, i+l+1)`.
`fill_in` sets `_arr[0][i] = i` and
`_arr[l+1][i] = (val(x) < val(y) ? x : y)` for `x = _arr[l][i]`, `y = _arr[l][i+1]`
(note: on equal values the *second* operand `y` is chosen). -/

def naiveTable (A : ℕ → ℤ) : ℕ → ℕ → ℕ
  | 0, i => i
  | l + 1, i =>
    let x := naiveTable A l i
    let y := naiveTable A l (i + 1)
    if A x < A y then x else y

/-- `naive_rmq::query`: `_arr[v-u-1][u-begin()]`. -/
def naiveQuery (A : ℕ → ℤ) (u v : ℕ) : ℕ :=
  naiveTable A (v - u - 1) u

/-! ## sparse_rmq (src/naive_rmq.hpp, third document: sparse_rmq)

`sparseTable A d i` is `_arr[d][i]`: the index of the minimum of `A[i, i+2^d)`.
The fill zips `_arr[d]` with itself shifted by `2^d`, taking
`val(x) < val(y) ? x : y`. -/

def sparseTable (A : ℕ → ℤ) : ℕ → ℕ → ℕ
  | 0, i => i
  | d + 1, i =>
    let x := sparseTable A d i
    let y := sparseTable A d (i + 2 ^ d)
    if A x < A y then x else y

/-- `sparse_rmq::query`: `depth = max(0, floor(log2(v-u-1)))`,
`px = _arr[depth][u]`, `py = _arr[depth][v - 2^depth]`, result
`val(px) < val(py) ? px : py`.  `Nat.log2` returns `0` at `0` and `1`,
which is exactly the clamped `max(0, floor(log2 ·)))` of the source. -/
def sparseQuery (A : ℕ → ℤ) (u v : ℕ) : ℕ :=
  let depth := ilog2 (v - u - 1)
  let px := sparseTable A depth u
  let py := sparseTable A depth (v - 2 ^ depth)
  if A px < A py then px else py

/-! ## Minimum-position predicates

`IsRMin A u v i`: `i` is the *rightmost* position of the minimum of `A[u, v)`.
`IsLMin A u v i`: `i` is the *leftmost* such position.  These are the spec-side
notions the tables are measured against. -/

def IsRMin (A : ℕ → ℤ) (u v i : ℕ) : Prop :=
  u ≤ i ∧ i < v ∧ (∀ j, u ≤ j → j < v → A i ≤ A j) ∧ ∀ j, i < j → j < v → A i < A j

def IsLMin (A : ℕ → ℤ) (u v i : ℕ) : Prop :=
  u ≤ i ∧ i < v ∧ (∀ j, u ≤ j → j < v → A i ≤ A j) ∧ ∀ j, u ≤ j → j < i → A i < A j

theorem IsRMin.uniqueR {A : ℕ → ℤ} {u v i i' : ℕ}
    (h : IsRMin A u v i) (h' : IsRMin A u v i') : i = i' := by
  rcases h with ⟨hu, hv, hmin, hstrict⟩
  rcases h' with ⟨hu', hv', hmin', hstrict'⟩
  rcases lt_trichotomy i i' with hlt | he | hgt
  · exact absurd (hmin' i hu hv) (not_le.mpr (hstrict i' hlt hv'))
  · exact he
  · exact absurd (hmin i' hu' hv') (not_le.mpr (hstrict' i hgt hv))

theorem IsLMin.uniqueL {A : ℕ → ℤ} {u v i i' : ℕ}
    (h : IsLMin A u v i) (h' : IsLMin A u v i') : i = i' := by
  rcases h with ⟨hu, hv, hmin, hstrict⟩
  rcases h' with ⟨hu', hv', hmin', hstrict'⟩
  rcases lt_trichotomy i i' with hlt | he | hgt
  · exact absurd (hmin i' hu' hv') (not_le.mpr (hstrict' i hu hlt))
  · exact he
  · exact absurd (hmin' i hu hv) (not_le.mpr (hstrict i' hu' hgt))

/-- Merging two rightmost-min windows `[u, m)` and `[u', v)` that cover `[u, v)`
(`u ≤ u' ≤ m ≤ v`) with the source's `val(x) < val(y) ? x : y` choice yields the
rightmost min of `[u, v)`. -/
theorem IsRMin.merge {A : ℕ → ℤ} {u m u' v x y : ℕ}
    (hx : IsRMin A u m x) (hy : IsRMin A u' v y)
    (h1 : u ≤ u') (h2 : u' ≤ m) (h3 : m ≤ v) :
    IsRMin A u v (if A x < A y then x else y) := by
  rcases hx with ⟨hxu, hxm, hxmin, hxstrict⟩
  rcases hy with ⟨hyu, hyv, hymin, hystrict⟩
  by_cases hc : A x < A y
  · simp only [if_pos hc]
    refine ⟨hxu, lt_of_lt_of_le hxm h3, ?_, ?_⟩
    · intro j hj hjv
      by_cases hjm : j < m
      · exact hxmin j hj hjm
      · exact le_trans (le_of_lt hc) (hymin j (le_trans h2 (not_lt.mp hjm)) hjv)
    · intro j hij hjv
      by_cases hjm : j < m
      · exact hxstrict j hij hjm
      · exact lt_of_lt_of_le hc (hymin j (le_trans h2 (not_lt.mp hjm)) hjv)
  · simp only [if_neg hc]
    have hyx : A y ≤ A x := not_lt.mp hc
    refine ⟨le_trans h1 hyu, hyv, ?_, ?_⟩
    · intro j hj hjv
      by_cases hju : u' ≤ j
      · exact hymin j hju hjv
      · exact le_trans (le_trans hyx (hxmin j hj (lt_of_lt_of_le (not_le.mp hju) h2)))
          le_rfl
    · intro j hij hjv
      exact hystrict j hij hjv

/-- I2, corrected tie direction: the naive table entry `_arr[l][i]` is the
rightmost minimum position of `A[i, i+l+1)`. -/
theorem naiveTable_isRMin (A : ℕ → ℤ) : ∀ l i, IsRMin A i (i + l + 1) (naiveTable A l i) := by
  intro l
  induction l with
  | zero =>
    intro i
    refine ⟨le_rfl, by simp [naiveTable], ?_, ?_⟩
    · intro j h1 h2
      have hj : j = i := by omega
      simp [naiveTable, hj]
    · intro j h1 h2
      simp only [naiveTable] at h1
      omega
  | succ l ih =>
    intro i
    have hx := ih i
    have hy := ih (i + 1)
    have := IsRMin.merge hx hy (by omega) (by omega) (by omega)
    have harr : i + 1 + l + 1 = i + (l + 1) + 1 := by omega
    rw [harr] at this
    simpa [naiveTable] using this

/-- `naive_rmq::query u v` (`u < v`) returns the rightmost minimum position of
`A[u, v)`. -/
theorem naiveQuery_isRMin (A : ℕ → ℤ) (u v : ℕ) (h : u < v) :
    IsRMin A u v (naiveQuery A u v) := by
  have := naiveTable_isRMin A (v - u - 1) u
  have harr : u + (v - u - 1) + 1 = v := by omega
  rw [harr] at this
  exact this

/-- The sparse table entry `_arr[d][i]` is the rightmost minimum position of
`A[i, i+2^d)`. -/
theorem sparseTable_isRMin (A : ℕ → ℤ) : ∀ d i, IsRMin A i (i + 2 ^ d) (sparseTable A d i) := by
  intro d
  induction d with
  | zero =>
    intro i
    refine ⟨le_rfl, by simp [sparseTable], ?_, ?_⟩
    · intro j h1 h2
      have hj : j = i := by omega
      simp [sparseTable, hj]
    · intro j h1 h2
      simp only [sparseTable] at h1
      omega
  | succ d ih =>
    intro i
    have hx := ih i
    have hy := ih (i + 2 ^ d)
    have hpow : i + 2 ^ d + 2 ^ d = i + 2 ^ (d + 1) := by
      have : 2 ^ (d + 1) = 2 ^ d + 2 ^ d := by rw [pow_succ]; omega
      omega
    rw [hpow] at hy
    have h1 : (1:ℕ) ≤ 2 ^ d := Nat.one_le_two_pow
    have h2 : 2 ^ d ≤ 2 ^ (d + 1) := by rw [pow_succ]; omega
    have := IsRMin.merge hx hy (by omega) le_rfl (by omega)
    simpa [sparseTable] using this

/-- `sparse_rmq::query u v` (`u < v`) returns the rightmost minimum position of
`A[u, v)`. -/
theorem sparseQuery_isRMin (A : ℕ → ℤ) (u v : ℕ) (h : u < v) :
    IsRMin A u v (sparseQuery A u v) := by
  unfold sparseQuery
  rw [ilog2_eq_log2]
  set d := Nat.log2 (v - u - 1) with hd
  have hdle : 2 ^ d ≤ v - u := by
    by_cases hone : v - u - 1 = 0
    · have hd0 : d = 0 := by rw [hd, hone]; simp [Nat.log2]
      rw [hd0]
      omega
    · have := Nat.log2_self_le hone
      rw [← hd] at this
      omega
  have hdge : v - u ≤ 2 ^ (d + 1) := by
    have h1 : (1:ℕ) ≤ 2 ^ d := Nat.one_le_two_pow
    have h2 : 2 ^ (d + 1) = 2 ^ d + 2 ^ d := by rw [pow_succ]; omega
    by_cases hone : v - u - 1 = 0
    · omega
    · have := Nat.lt_log2_self (n := v - u - 1)
      rw [← hd] at this
      omega
  have hx := sparseTable_isRMin A d u
  have hy := sparseTable_isRMin A d (v - 2 ^ d)
  have hyv : v - 2 ^ d + 2 ^ d = v := by omega
  rw [hyv] at hy
  have h2 : 2 ^ (d + 1) = 2 ^ d + 2 ^ d := by rw [pow_succ]; omega
  exact IsRMin.merge hx hy (by omega) (by omega) (by omega)

/-- Any rightmost minimum is in particular a minimum position. -/
theorem IsRMin.isMinPos {A : ℕ → ℤ} {u v i : ℕ} (h : IsRMin A u v i) :
    u ≤ i ∧ i < v ∧ ∀ j, u ≤ j → j < v → A i ≤ A j :=
  ⟨h.1, h.2.1, h.2.2.1⟩

/-! ## pm_rmq (src/pm_rmq.hpp)

Constructor state: `_logn = max(1, floor(log2 n))`, `block_size() = max(1, _logn / 2)`.
For each block the constructor records into `_super_array_vals/_super_array_idxs`
the block's min value and its global position (`std::min_element`, leftmost), and
builds a `naive_rmq` over the normalized block (block with its first value
subtracted).  Equal normalized blocks share one `naive_rmq` through the
`_sub_block_rmqs` map; since `naive_rmq` is a pure function of the element
sequence it is built from, the shared engine answers exactly as the engine of
each block's own normalized sequence, which is how `subQuery` models it. -/

def blockSize (n : ℕ) : ℕ := max 1 (max 1 (ilog2 n) / 2)

/-- End offset of block `k`: `min(end(), begin() + (k+1)*block_size())`. -/
def blockEnd (n B k : ℕ) : ℕ := min ((k + 1) * B) n

/-- `std::min_element` over `A[i, i+k+1)`: the leftmost position of the minimum
(replace the running best only on a strictly smaller value). -/
def minFrom (A : ℕ → ℤ) (i : ℕ) : ℕ → ℕ
  | 0 => i
  | k + 1 =>
    let b := minFrom A i k
    if A (i + (k + 1)) < A b then i + (k + 1) else b

/-- `_super_array_idxs[k]`: global position of block `k`'s minimum. -/
def blockMinIdx (A : ℕ → ℤ) (n B k : ℕ) : ℕ :=
  minFrom A (k * B) (blockEnd n B k - k * B - 1)

/-- `_super_array_vals[k]`: block `k`'s minimum value. -/
def superVal (A : ℕ → ℤ) (n B k : ℕ) : ℤ := A (blockMinIdx A n B k)

/-- The normalized block `k` (`normalize`: subtract the block's first value). -/
def normBlock (A : ℕ → ℤ) (B k : ℕ) : ℕ → ℤ :=
  fun j => A (k * B + j) - A (k * B)

/-- `_sub_block_rmq_array[k]->query_offset(a, b)`: the naive engine of block
`k`'s shape queried at offsets `[a, b)`. -/
def subQuery (A : ℕ → ℤ) (B k a b : ℕ) : ℕ :=
  naiveTable (normBlock A B k) (b - a - 1) a

/-- `pm_rmq::query` (offsets `u`, `v`, exclusive upper bound), the three-way
case split of src/pm_rmq.hpp lines 163–226. -/
def pmQuery (A : ℕ → ℤ) (n u v : ℕ) : ℕ :=
  let B := blockSize n
  let ub := u / B
  let uo := u % B
  let vb := (v - 1) / B
  let vo := (v - 1) % B
  if vb - ub = 0 then
    ub * B + subQuery A B ub uo (vo + 1)
  else
    let ubEnd := min n ((ub + 1) * B)
    let uMin := ub * B + subQuery A B ub uo (ubEnd - ub * B)
    let vMin := vb * B + subQuery A B vb 0 (vo + 1)
    if vb - ub = 1 then
      if A uMin < A vMin then uMin else vMin
    else
      let q := sparseQuery (superVal A n B) (ub + 1) vb
      if A uMin < A vMin then
        if A uMin < superVal A n B q then uMin else blockMinIdx A n B q
      else
        if A vMin < superVal A n B q then vMin else blockMinIdx A n B q

/-- `minFrom` computes the leftmost minimum position of `A[i, i+k+1)`,
as `std::min_element` does. -/
theorem minFrom_isLMin (A : ℕ → ℤ) (i : ℕ) : ∀ k, IsLMin A i (i + k + 1) (minFrom A i k) := by
  intro k
  induction k with
  | zero =>
    refine ⟨le_rfl, by simp [minFrom], ?_, ?_⟩
    · intro j h1 h2
      have hj : j = i := by omega
      simp [minFrom, hj]
    · intro j h1 h2
      simp only [minFrom] at h2
      omega
  | succ k ih =>
    rcases ih with ⟨hbu, hbv, hbmin, hbstrict⟩
    by_cases hc : A (i + (k + 1)) < A (minFrom A i k)
    · have hres : minFrom A i (k + 1) = i + (k + 1) := by simp [minFrom, hc]
      rw [hres]
      refine ⟨by omega, by omega, ?_, ?_⟩
      · intro j h1 h2
        by_cases hj : j < i + k + 1
        · exact le_of_lt (lt_of_lt_of_le hc (hbmin j h1 hj))
        · have : j = i + (k + 1) := by omega
          rw [this]
      · intro j h1 h2
        exact lt_of_lt_of_le hc (hbmin j h1 (by omega))
    · have hres : minFrom A i (k + 1) = minFrom A i k := by simp [minFrom, hc]
      rw [hres]
      refine ⟨hbu, by omega, ?_, ?_⟩
      · intro j h1 h2
        by_cases hj : j < i + k + 1
        · exact hbmin j h1 hj
        · have : j = i + (k + 1) := by omega
          rw [this]
          exact not_lt.mp hc
      · intro j h1 h2
        exact hbstrict j h1 h2

/-- Transfer of rightmost-min positions along the per-block normalization
(`normalize` subtracts a constant, which preserves all comparisons). -/
theorem IsRMin.offset {A : ℕ → ℤ} {c : ℕ} {d : ℤ} {u v t : ℕ}
    (h : IsRMin (fun j => A (c + j) - d) u v t) :
    IsRMin A (c + u) (c + v) (c + t) := by
  rcases h with ⟨h1, h2, h3, h4⟩
  refine ⟨by omega, by omega, ?_, ?_⟩
  · intro j hj1 hj2
    have h := h3 (j - c) (by omega) (by omega)
    change A (c + t) - d ≤ A (c + (j - c)) - d at h
    have hcj : c + (j - c) = j := by omega
    rw [hcj] at h
    omega
  · intro j hj1 hj2
    have h := h4 (j - c) (by omega) (by omega)
    change A (c + t) - d < A (c + (j - c)) - d at h
    have hcj : c + (j - c) = j := by omega
    rw [hcj] at h
    omega

/-- The per-block naive query answers rightmost minima of the original input:
`k*B + subQuery A B k a b` is the rightmost min position of `A[k*B+a, k*B+b)`. -/
theorem subQuery_isRMin (A : ℕ → ℤ) (B k a b : ℕ) (h : a < b) :
    IsRMin A (k * B + a) (k * B + b) (k * B + subQuery A B k a b) := by
  have := naiveTable_isRMin (normBlock A B k) (b - a - 1) a
  have harr : a + (b - a - 1) + 1 = b := by omega
  rw [harr] at this
  exact IsRMin.offset this

/-- `pm_rmq::query` returns a position of the minimum of `A[u, v)`
(for any integer input; the ±1 property is only asserted, never used for
soundness).  This is the block/super-array case analysis of the source. -/
theorem pmQuery_correct (A : ℕ → ℤ) (n u v : ℕ) (huv : u < v) (hv : v ≤ n) :
    u ≤ pmQuery A n u v ∧ pmQuery A n u v < v ∧
      ∀ j, u ≤ j → j < v → A (pmQuery A n u v) ≤ A j := by
  have hB0 : 0 < blockSize n := by
    have : 1 ≤ blockSize n := le_max_left _ _
    omega
  set B := blockSize n with hB
  set ub := u / B with hub
  set uo := u % B with huo
  set vb := (v - 1) / B with hvb
  set vo := (v - 1) % B with hvo
  have hu_eq : ub * B + uo = u := by rw [Nat.mul_comm]; exact Nat.div_add_mod u B
  have hv_eq : vb * B + vo = v - 1 := by rw [Nat.mul_comm]; exact Nat.div_add_mod (v - 1) B
  have huo_lt : uo < B := Nat.mod_lt _ hB0
  have hvo_lt : vo < B := Nat.mod_lt _ hB0
  have hbl : ub ≤ vb := by
    rw [hub, hvb]
    exact Nat.div_le_div_right (by omega)
  by_cases hsame : vb - ub = 0
  · -- same block
    have hbeq : vb = ub := by omega
    have hvouo : uo ≤ vo := by rw [hbeq] at hv_eq; omega
    have h := subQuery_isRMin A B ub uo (vo + 1) (by omega)
    have hl : ub * B + uo = u := by omega
    have hr : ub * B + (vo + 1) = v := by rw [hbeq] at hv_eq; omega
    rw [hl, hr] at h
    have hres : pmQuery A n u v = ub * B + subQuery A B ub uo (vo + 1) := by
      simp only [pmQuery]
      rw [← hB, ← hub, ← huo, ← hvb, ← hvo, if_pos hsame]
    rw [hres]
    exact h.isMinPos
  · -- ub < vb
    have hlt : ub < vb := by omega
    have hMulu : (ub + 1) * B = ub * B + B := by ring
    have hMulv : (vb + 1) * B = vb * B + B := by ring
    have hubB : (ub + 1) * B ≤ vb * B := Nat.mul_le_mul_right B (by omega)
    set uMin := ub * B + subQuery A B ub uo (min n ((ub + 1) * B) - ub * B) with huM
    set vMin := vb * B + subQuery A B vb 0 (vo + 1) with hvM
    have huMin : IsRMin A u ((ub + 1) * B) uMin := by
      have h := subQuery_isRMin A B ub uo (min n ((ub + 1) * B) - ub * B) (by omega)
      have h1 : ub * B + uo = u := by omega
      have h2 : ub * B + (min n ((ub + 1) * B) - ub * B) = (ub + 1) * B := by omega
      rw [h1, h2] at h
      rw [huM]
      exact h
    have hvMin : IsRMin A (vb * B) v vMin := by
      have h := subQuery_isRMin A B vb 0 (vo + 1) (by omega)
      have h1 : vb * B + 0 = vb * B := by omega
      have h2 : vb * B + (vo + 1) = v := by omega
      rw [h1, h2] at h
      rw [hvM]
      exact h
    by_cases hadj : vb - ub = 1
    · -- adjacent blocks
      have hbeq : (ub + 1) * B = vb * B := by
        have hv1 : ub + 1 = vb := by omega
        rw [hv1]
      have h := IsRMin.merge huMin hvMin (by omega) (by omega) (by omega)
      have hres : pmQuery A n u v = if A uMin < A vMin then uMin else vMin := by
        simp only [pmQuery]
        rw [← hB, ← hub, ← huo, ← hvb, ← hvo, if_neg hsame, if_pos hadj]
      rw [hres]
      exact h.isMinPos
    · -- blocks strictly apart: full algorithm with the super array
      have hgap : ub + 2 ≤ vb := by omega
      set q := sparseQuery (superVal A n B) (ub + 1) vb with hq
      have hqmin := (sparseQuery_isRMin (superVal A n B) (ub + 1) vb (by omega)).isMinPos
      rcases hqmin with ⟨hq1, hq2, hq3⟩
      have hMulq : (q + 1) * B = q * B + B := by ring
      have hqB1 : (ub + 1) * B ≤ q * B := Nat.mul_le_mul_right B (by omega)
      have hqB2 : (q + 1) * B ≤ vb * B := Nat.mul_le_mul_right B (by omega)
      -- block q is a full middle block
      have hqEnd : blockEnd n B q = (q + 1) * B := by
        apply min_eq_left
        omega
      have hsmin := minFrom_isLMin A (q * B) (blockEnd n B q - q * B - 1)
      have harr5 : q * B + (blockEnd n B q - q * B - 1) + 1 = blockEnd n B q := by
        omega
      rw [harr5] at hsmin
      have hsIdx : blockMinIdx A n B q = minFrom A (q * B) (blockEnd n B q - q * B - 1) := rfl
      rw [← hsIdx] at hsmin
      rcases hsmin with ⟨hs1, hs2, hs3, _⟩
      rw [hqEnd] at hs2
      have hsval : superVal A n B q = A (blockMinIdx A n B q) := rfl
      rcases huMin.isMinPos with ⟨hu1, hu2, hu3⟩
      rcases hvMin.isMinPos with ⟨hv1, hv2, hv3⟩
      -- any position of [u, v) is dominated by one of the three candidates
      have hcover : ∀ j, u ≤ j → j < v →
          A uMin ≤ A j ∨ A vMin ≤ A j ∨ A (blockMinIdx A n B q) ≤ A j := by
        intro j hj1 hj2
        by_cases hc1 : j < (ub + 1) * B
        · exact Or.inl (hu3 j hj1 hc1)
        · by_cases hc2 : j < vb * B
          · -- j lies in a middle block k with ub+1 ≤ k < vb
            refine Or.inr (Or.inr ?_)
            set k := j / B with hk
            have hj_eq : k * B + j % B = j := by
              rw [Nat.mul_comm]
              exact Nat.div_add_mod j B
            have hjm : j % B < B := Nat.mod_lt _ hB0
            have hMulk : (k + 1) * B = k * B + B := by ring
            have hk1 : ub + 1 ≤ k := by
              by_contra hcon
              have hkub : k + 1 ≤ ub + 1 := by omega
              have := Nat.mul_le_mul_right B hkub
              omega
            have hk2 : k < vb := by
              by_contra hcon
              have hkvb : vb ≤ k := by omega
              have := Nat.mul_le_mul_right B hkvb
              omega
            have hkB3 : (k + 1) * B ≤ vb * B := Nat.mul_le_mul_right B (by omega)
            -- block k's min is ≤ A j, and the super query's block's min is ≤ block k's
            have hkmin := minFrom_isLMin A (k * B) (blockEnd n B k - k * B - 1)
            have hkEnd : blockEnd n B k = (k + 1) * B := by
              apply min_eq_left
              omega
            have harr6 : k * B + (blockEnd n B k - k * B - 1) + 1 = blockEnd n B k := by
              omega
            rw [harr6] at hkmin
            have hkIdx : blockMinIdx A n B k = minFrom A (k * B) (blockEnd n B k - k * B - 1) :=
              rfl
            rw [← hkIdx] at hkmin
            rcases hkmin with ⟨_, _, hk3, _⟩
            have h1 : A (blockMinIdx A n B k) ≤ A j := by
              apply hk3 j (by omega)
              omega
            have h2 : superVal A n B q ≤ superVal A n B k := hq3 k hk1 hk2
            rw [hsval] at h2
            exact le_trans h2 h1
          · exact Or.inr (Or.inl (hv3 j (by omega) hj2))
      have hres : pmQuery A n u v =
          (if A uMin < A vMin then
            if A uMin < superVal A n B q then uMin else blockMinIdx A n B q
          else
            if A vMin < superVal A n B q then vMin else blockMinIdx A n B q) := by
        simp only [pmQuery]
        rw [← hB, ← hub, ← huo, ← hvb, ← hvo, if_neg hsame, if_neg hadj]
      rw [hres]
      have hsbound1 : u ≤ blockMinIdx A n B q := by omega
      have hsbound2 : blockMinIdx A n B q < v := by omega
      by_cases hc1 : A uMin < A vMin
      · by_cases hc2 : A uMin < superVal A n B q
        · rw [if_pos hc1, if_pos hc2]
          refine ⟨hu1, by omega, ?_⟩
          intro j hj1 hj2
          rcases hcover j hj1 hj2 with h | h | h
          · exact h
          · exact le_trans (le_of_lt hc1) h
          · rw [hsval] at hc2
            exact le_trans (le_of_lt hc2) h
        · rw [if_pos hc1, if_neg hc2]
          rw [hsval] at hc2
          have hle : A (blockMinIdx A n B q) ≤ A uMin := not_lt.mp hc2
          refine ⟨hsbound1, hsbound2, ?_⟩
          intro j hj1 hj2
          rcases hcover j hj1 hj2 with h | h | h
          · exact le_trans hle h
          · exact le_trans (le_trans hle (le_of_lt hc1)) h
          · exact h
      · have hc1' : A vMin ≤ A uMin := not_lt.mp hc1
        by_cases hc2 : A vMin < superVal A n B q
        · rw [if_neg hc1, if_pos hc2]
          refine ⟨by omega, hv2, ?_⟩
          intro j hj1 hj2
          rcases hcover j hj1 hj2 with h | h | h
          · exact le_trans hc1' h
          · exact h
          · rw [hsval] at hc2
            exact le_trans (le_of_lt hc2) h
        · rw [if_neg hc1, if_neg hc2]
          rw [hsval] at hc2
          have hle : A (blockMinIdx A n B q) ≤ A vMin := not_lt.mp hc2
          refine ⟨hsbound1, hsbound2, ?_⟩
          intro j hj1 hj2
          rcases hcover j hj1 hj2 with h | h | h
          · exact le_trans (le_trans hle hc1') h
          · exact le_trans hle h
          · exact h

/-! ## The ±1 assertion of `pm_rmq`'s constructor (src/pm_rmq.hpp lines 123–131)

The constructor zips `[b, e-1)` with `[b+1, e)` and asserts
`diff == -1 || diff == 1` for `diff = *it - *(it+1)`, i.e. for every
`i` with `i + 1 < n` it checks `A i - A (i+1) ∈ {-1, 1}`. -/

def pmCheck (A : ℕ → ℤ) (n : ℕ) : Bool :=
  (List.range (n - 1)).all fun i =>
    decide (A i - A (i + 1) = -1) || decide (A i - A (i + 1) = 1)

/-! ## Spec-side scan functions used to state tie-break properties

`rminFrom A i k` is the rightmost minimum position of `A[i, i+k+1)` computed by
a direct left-to-right scan (replace the running best on `≤`); it is the
rightmost counterpart of `minFrom`. -/

def rminFrom (A : ℕ → ℤ) (i : ℕ) : ℕ → ℕ
  | 0 => i
  | k + 1 =>
    let b := rminFrom A i k
    if A (i + (k + 1)) ≤ A b then i + (k + 1) else b

theorem rminFrom_isRMin (A : ℕ → ℤ) (i : ℕ) : ∀ k, IsRMin A i (i + k + 1) (rminFrom A i k) := by
  intro k
  induction k with
  | zero =>
    refine ⟨le_rfl, by simp [rminFrom], ?_, ?_⟩
    · intro j h1 h2
      have hj : j = i := by omega
      simp [rminFrom, hj]
    · intro j h1 h2
      simp only [rminFrom] at h1
      omega
  | succ k ih =>
    rcases ih with ⟨hbu, hbv, hbmin, hbstrict⟩
    by_cases hc : A (i + (k + 1)) ≤ A (rminFrom A i k)
    · have hres : rminFrom A i (k + 1) = i + (k + 1) := by simp [rminFrom, hc]
      rw [hres]
      refine ⟨by omega, by omega, ?_, ?_⟩
      · intro j h1 h2
        by_cases hj : j < i + k + 1
        · exact le_trans hc (hbmin j h1 hj)
        · have : j = i + (k + 1) := by omega
          rw [this]
      · intro j h1 h2
        omega
    · have hres : rminFrom A i (k + 1) = rminFrom A i k := by simp [rminFrom, hc]
      rw [hres]
      have hc' : A (rminFrom A i k) < A (i + (k + 1)) := not_le.mp hc
      refine ⟨hbu, by omega, ?_, ?_⟩
      · intro j h1 h2
        by_cases hj : j < i + k + 1
        · exact hbmin j h1 hj
        · have : j = i + (k + 1) := by omega
          rw [this]
          exact le_of_lt hc'
      · intro j h1 h2
        by_cases hj : j < i + k + 1
        · exact hbstrict j h1 hj
        · have : j = i + (k + 1) := by omega
          rw [this]
          exact hc'

/-- Spec-side choice of "whichever of the two positions has the smaller
A-value, ties broken to the leftmost of the two positions". -/
def leastPos (A : ℕ → ℤ) (x y : ℕ) : ℕ :=
  if A x < A y then x else if A y < A x then y else min x y

/-- The claim's reading of `sparse_rmq::query` (C4 as stated): `ℓ = v - u`,
`d = ⌊lg ℓ⌋`, table entries are *leftmost* argmins of `A[i, i+2^d)`, combined
with a *leftmost* tie-break. -/
def claimSparseQuery (A : ℕ → ℤ) (u v : ℕ) : ℕ :=
  let d := ilog2 (v - u)
  leastPos A (minFrom A u (2 ^ d - 1)) (minFrom A (v - 2 ^ d) (2 ^ d - 1))

/-- The corrected reading of `sparse_rmq::query`: `d = max(0, ⌊lg (ℓ-1)⌋)`,
table entries are *rightmost* argmins of their windows, and on a tie of the two
sampled entries the second one (`py`) is returned. -/
def claimSparseQueryAmended (A : ℕ → ℤ) (u v : ℕ) : ℕ :=
  let d := ilog2 (v - u - 1)
  let x := rminFrom A u (2 ^ d - 1)
  let y := rminFrom A (v - 2 ^ d) (2 ^ d - 1)
  if A x < A y then x else y

/-- The claim's reading of `pm_rmq::query` in the far case (C5 as stated):
among `{u_min, v_min, s_min}` return the one with the smallest A-value,
ties broken to the leftmost position. -/
def claimPmFar (A : ℕ → ℤ) (n u v : ℕ) : ℕ :=
  let B := blockSize n
  let ub := u / B
  let uo := u % B
  let vb := (v - 1) / B
  let vo := (v - 1) % B
  let uMin := ub * B + subQuery A B ub uo (min n ((ub + 1) * B) - ub * B)
  let vMin := vb * B + subQuery A B vb 0 (vo + 1)
  let q := sparseQuery (superVal A n B) (ub + 1) vb
  leastPos A (leastPos A uMin vMin) (blockMinIdx A n B q)

/-- The corrected far-case selection actually performed by `pm_rmq::query`
(src/pm_rmq.hpp lines 209–224): `u_min` only wins on a strictly smaller value
than both others, `v_min` wins over `u_min` on ties, and the super-array
candidate `s_min` wins all remaining ties. -/
def amendedPmFar (A : ℕ → ℤ) (n u v : ℕ) : ℕ :=
  let B := blockSize n
  let ub := u / B
  let uo := u % B
  let vb := (v - 1) / B
  let vo := (v - 1) % B
  let uMin := ub * B + subQuery A B ub uo (min n ((ub + 1) * B) - ub * B)
  let vMin := vb * B + subQuery A B vb 0 (vo + 1)
  let q := sparseQuery (superVal A n B) (ub + 1) vb
  if A uMin < A vMin then
    if A uMin < superVal A n B q then uMin else blockMinIdx A n B q
  else
    if A vMin < superVal A n B q then vMin else blockMinIdx A n B q

/-! ## Claim theorems (tie-break behaviour and the ±1 assertion) -/

/-- C3 (counterexample): on the input `[0, 0]` (modelled as the constant-zero
sequence of length 2) `naive_rmq`'s query over the full range returns
position 1, which is not the leftmost position of the minimum; the leftmost
minimum position of `A[0, 2)` is 0. -/
theorem claim_C3_counterexample :
    naiveQuery (fun _ => (0 : ℤ)) 0 2 = 1 ∧
      IsLMin (fun _ => (0 : ℤ)) 0 2 0 ∧
      ¬ IsLMin (fun _ => (0 : ℤ)) 0 2 (naiveQuery (fun _ => (0 : ℤ)) 0 2) := by
  have hq : naiveQuery (fun _ => (0 : ℤ)) 0 2 = 1 := rfl
  refine ⟨hq, ⟨le_rfl, by omega, fun j _ _ => le_rfl, fun j _ hj => by omega⟩, ?_⟩
  rw [hq]
  intro h
  exact absurd (h.2.2.2 0 le_rfl Nat.one_pos) (lt_irrefl _)

/-- C3 (amended): every engine's query returns a position of the minimum with
a deterministic tie choice, but the choice is not the leftmost minimum
position: `naive_rmq` and `sparse_rmq` return the *rightmost* minimum position
of `A[u, v)`. -/
theorem claim_C3_amended_rightmost (A : ℕ → ℤ) (u v : ℕ) (h : u < v) :
    IsRMin A u v (naiveQuery A u v) ∧ IsRMin A u v (sparseQuery A u v) :=
  ⟨naiveQuery_isRMin A u v h, sparseQuery_isRMin A u v h⟩

/-- Witness for `claim_C3_amended_rightmost` at the concrete input `[0, 0]`,
`query(0, 2)`. -/
theorem claim_C3_amended_rightmost_witness :
    IsRMin (fun _ => (0 : ℤ)) 0 2 (naiveQuery (fun _ => (0 : ℤ)) 0 2) ∧
      IsRMin (fun _ => (0 : ℤ)) 0 2 (sparseQuery (fun _ => (0 : ℤ)) 0 2) :=
  claim_C3_amended_rightmost (fun _ => (0 : ℤ)) 0 2 (by decide)

/-- C4 (counterexample): on the input `[0, 0]`, `sparse_rmq::query(0, 2)`
returns 1, while the claimed formula — `d = ⌊lg ℓ⌋`, leftmost-argmin table
entries `M[d][u]`, `M[d][v - 2^d]`, leftmost tie-break — yields 0. -/
theorem claim_C4_counterexample :
    sparseQuery (fun _ => (0 : ℤ)) 0 2 = 1 ∧
      claimSparseQuery (fun _ => (0 : ℤ)) 0 2 = 0 ∧
      sparseQuery (fun _ => (0 : ℤ)) 0 2 ≠ claimSparseQuery (fun _ => (0 : ℤ)) 0 2 := by
  refine ⟨by decide, by decide, by decide⟩

/-- C4 (amended): `sparse_rmq::query(u, v)` equals the argmin, with
*rightmost* tie-break, of the two table entries at depth
`d = max(0, ⌊lg(ℓ - 1)⌋)`, where the table entry `M[d][i]` is the *rightmost*
minimum position of `A[i, i + 2^d)` (here computed by the direct scan
`rminFrom`, provably the rightmost minimum position of its window). -/
theorem claim_C4_amended :
    (∀ (A : ℕ → ℤ) (i k : ℕ), IsRMin A i (i + k + 1) (rminFrom A i k)) ∧
      (∀ (A : ℕ → ℤ) (d i : ℕ), sparseTable A d i = rminFrom A i (2 ^ d - 1)) ∧
      ∀ (A : ℕ → ℤ) (u v : ℕ), sparseQuery A u v = claimSparseQueryAmended A u v := by
  have htab : ∀ (A : ℕ → ℤ) (d i : ℕ), sparseTable A d i = rminFrom A i (2 ^ d - 1) := by
    intro A d i
    have h1 := sparseTable_isRMin A d i
    have h2 := rminFrom_isRMin A i (2 ^ d - 1)
    have hone : (1 : ℕ) ≤ 2 ^ d := Nat.one_le_two_pow
    have he : i + (2 ^ d - 1) + 1 = i + 2 ^ d := by omega
    rw [he] at h2
    exact h1.uniqueR h2
  refine ⟨fun A i k => rminFrom_isRMin A i k, htab, ?_⟩
  intro A u v
  simp only [sparseQuery, claimSparseQueryAmended, htab]

/-- C5 (counterexample): on the ±1 input `[0, 1, 0, 1, 2]` (length 5, block
size 1), `query(0, 5)` has block distance `Δ = 4 ≥ 2`; the code returns the
super-array candidate `s_min = 2`, while the claimed selection — leftmost
tie-break among `{u_min, v_min, s_min}` — yields `u_min = 0`. -/
theorem claim_C5_counterexample :
    pmCheck (fun i => [0, 1, 0, 1, 2].getD i 0) 5 = true ∧
      pmQuery (fun i => [0, 1, 0, 1, 2].getD i 0) 5 0 5 = 2 ∧
      claimPmFar (fun i => [0, 1, 0, 1, 2].getD i 0) 5 0 5 = 0 ∧
      pmQuery (fun i => [0, 1, 0, 1, 2].getD i 0) 5 0 5 ≠
        claimPmFar (fun i => [0, 1, 0, 1, 2].getD i 0) 5 0 5 := by
  refine ⟨by decide, by decide, by decide, by decide⟩

/-- C5 (amended): in the same-block case `pm_rmq::query` returns
`ub·B + naive[ub].query(uo, vo + 1)` as claimed; in the far case (`Δ ≥ 2`) it
returns the candidate of `{u_min, v_min, s_min}` with the smallest A-value,
but ties are not resolved to the leftmost position: `u_min` wins only with a
value strictly smaller than both others, `v_min` wins over `u_min` on ties,
and `s_min` wins every tie against the block candidates (`amendedPmFar`). -/
theorem claim_C5_amended (A : ℕ → ℤ) (n u v : ℕ) (h1 : u < v) (h2 : v ≤ n) :
    ((v - 1) / blockSize n = u / blockSize n →
      pmQuery A n u v =
        u / blockSize n * blockSize n +
          subQuery A (blockSize n) (u / blockSize n) (u % blockSize n)
            ((v - 1) % blockSize n + 1)) ∧
      (u / blockSize n + 2 ≤ (v - 1) / blockSize n →
        pmQuery A n u v = amendedPmFar A n u v) := by
  constructor
  · intro he
    simp only [pmQuery]
    rw [if_pos (by omega)]
  · intro hf
    simp only [pmQuery, amendedPmFar]
    rw [if_neg (by omega), if_neg (by omega)]

/-- Witness for `claim_C5_amended` at the concrete ±1 input `[0, 1, 0, 1, 2]`,
`query(0, 5)`. -/
theorem claim_C5_amended_witness :
    ((5 - 1) / blockSize 5 = 0 / blockSize 5 →
      pmQuery (fun i => [0, 1, 0, 1, 2].getD i 0) 5 0 5 =
        0 / blockSize 5 * blockSize 5 +
          subQuery (fun i => [0, 1, 0, 1, 2].getD i 0) (blockSize 5) (0 / blockSize 5)
            (0 % blockSize 5) ((5 - 1) % blockSize 5 + 1)) ∧
      (0 / blockSize 5 + 2 ≤ (5 - 1) / blockSize 5 →
        pmQuery (fun i => [0, 1, 0, 1, 2].getD i 0) 5 0 5 =
          amendedPmFar (fun i => [0, 1, 0, 1, 2].getD i 0) 5 0 5) :=
  claim_C5_amended (fun i => [0, 1, 0, 1, 2].getD i 0) 5 0 5 (by decide) (by decide)

/-- C8: `pm_rmq`'s constructor assertion checks the strict ±1 property: it
passes exactly when every pair of consecutive elements differs by exactly `+1`
or `-1`; a consecutive difference of `0` (input `[5, 5]`) or of magnitude
greater than one (input `[0, 2]`) fails it. -/
theorem claim_C8_pm_assertion :
    (∀ (A : ℕ → ℤ) (n : ℕ), pmCheck A n = true ↔
      ∀ i, i + 1 < n → A (i + 1) - A i = 1 ∨ A (i + 1) - A i = -1) ∧
      pmCheck (fun _ => (5 : ℤ)) 2 = false ∧
      pmCheck (fun i => [0, 2].getD i 0) 2 = false := by
  refine ⟨?_, by decide, by decide⟩
  intro A n
  constructor
  · intro h i hi
    have hm := List.all_eq_true.mp h i (by rw [List.mem_range]; omega)
    simp only [Bool.or_eq_true, decide_eq_true_eq] at hm
    omega
  · intro h
    apply List.all_eq_true.mpr
    intro i hi
    rw [List.mem_range] at hi
    have := h i (by omega)
    simp only [Bool.or_eq_true, decide_eq_true_eq]
    omega

/-! ## tree.hpp: the n-ary tree container

A node owns an id and an ordered list of child subtrees.  Nodes are
identified by their position in the tree; here a node is addressed by the
list of child indices leading to it from the root (`[]` is the root).  The
representative slot written by LCA preprocessing is modelled by the function
`reprIdx` computing exactly the value the source stores (see below). -/

inductive Tree (V : Type) where
  | node : V → List (Tree V) → Tree V

namespace Tree

/-- `tree::id()`. -/
def idOf : Tree V → V
  | node v _ => v

/-- `tree::children()`. -/
def childrenOf : Tree V → List (Tree V)
  | node _ cs => cs

mutual

/-- Number of nodes of a tree. -/
def size : Tree V → ℕ
  | node _ cs => 1 + sizeL cs

/-- Total number of nodes of a forest. -/
def sizeL : List (Tree V) → ℕ
  | [] => 0
  | c :: rest => size c + sizeL rest

end

/-- Structural induction with a member-wise hypothesis on children. -/
theorem indOn {V : Type} {motive : Tree V → Prop}
    (h : ∀ v cs, (∀ c ∈ cs, motive c) → motive (node v cs)) : ∀ t, motive t
  | node v cs => h v cs fun c hc =>
      have : sizeOf c < 1 + sizeOf v + sizeOf cs :=
        Nat.lt_of_lt_of_le (List.sizeOf_lt_of_mem hc) (by omega)
      indOn h c
termination_by t => sizeOf t

theorem size_pos (t : Tree V) : 1 ≤ size t := by
  cases t with
  | node v cs => simp [size]

/-! Node addressing: `validPath t p` holds when `p` is a sequence of child
indices leading to a node of `t`. -/
mutual

def validPath : Tree V → List ℕ → Bool
  | _, [] => true
  | node _ cs, a :: q => validAux cs a q

def validAux : List (Tree V) → ℕ → List ℕ → Bool
  | [], _, _ => false
  | c :: _, 0, q => validPath c q
  | _ :: rest, a + 1, q => validAux rest a q

end

/-! The subtree addressed by a path (the tree itself on a dead index). -/
mutual

def nodeAt : Tree V → List ℕ → Tree V
  | t, [] => t
  | node v cs, a :: q => nodeAtAux (node v cs) cs a q

def nodeAtAux : Tree V → List (Tree V) → ℕ → List ℕ → Tree V
  | fb, [], _, _ => fb
  | _, c :: _, 0, q => nodeAt c q
  | fb, _ :: rest, a + 1, q => nodeAtAux fb rest a q

end

/-! ### lca.hpp: Euler tour

`lca::preprocess(t, level, eulerit, levelit)` appends `(t.id(), level)` on
arrival at a node, sets the node's representative to the index just written,
recurses into each child in order, and re-appends `(t.id(), level)` after each
child.  `tourE t d p` is that traversal of the subtree `t` at depth `d`,
where every emitted entry additionally carries the address (path) of the node
it came from — `(id, level, path)`.  The Euler array `_euler` and level array
`_level` of the source are the first two projections. -/

mutual

def tourE : Tree V → ℕ → List ℕ → List (V × ℕ × List ℕ)
  | node v cs, d, p => (v, d, p) :: tourEChildren v cs d p 0

def tourEChildren : V → List (Tree V) → ℕ → List ℕ → ℕ → List (V × ℕ × List ℕ)
  | _, [], _, _, _ => []
  | r, c :: rest, d, p, i =>
    tourE c (d + 1) (p ++ [i]) ++ (r, d, p) :: tourEChildren r rest d p (i + 1)

end

/-- `_euler`: the ids seen by the traversal. -/
def euler (t : Tree V) : List V := (tourE t 0 []).map fun e => e.1

/-- `_level`: the depths seen by the traversal (root depth 0). -/
def levelL (t : Tree V) : List ℕ := (tourE t 0 []).map fun e => e.2.1

/-- The node addresses seen by the traversal (instrumentation; not source
state, used to speak about which node each Euler entry came from). -/
def pathsL (t : Tree V) : List (List ℕ) := (tourE t 0 []).map fun e => e.2.2

/-! `tree::repr()` after preprocessing: on first arrival at a node the source
stores `_level.size() - 1`, the index of the entry just appended.  For the
node at path `p` that index is 1 (the parent's own entry) plus the lengths of
the tours of the earlier siblings (each `2·size - 1` entries plus one parent
re-entry) at every step of the path. -/
mutual

def reprIdx : Tree V → List ℕ → ℕ
  | _, [] => 0
  | node _ cs, a :: q => reprAux cs a q

def reprAux : List (Tree V) → ℕ → List ℕ → ℕ
  | [], _, _ => 0
  | c :: _, 0, q => 1 + reprIdx c q
  | c :: rest, a + 1, q => (2 * size c - 1) + 1 + reprAux rest a q

end

/-- Longest common prefix of two paths: the address of the deepest common
ancestor of the two addressed nodes. -/
def lcp : List ℕ → List ℕ → List ℕ
  | a :: p, b :: q => if a = b then a :: lcp p q else []
  | _, _ => []

/-- `lca::query(u, v)`: look up the two representatives, run the ±1 RMQ over
`_level` on the index range between them (inclusive bounds, so `+ 1` on the
upper one), and return `_euler` at the returned index. -/
def lcaQuery [Inhabited V] (t : Tree V) (pu pv : List ℕ) : V :=
  let L := levelL t
  let A : ℕ → ℤ := fun i => ((L.getD i 0 : ℕ) : ℤ)
  let ui := reprIdx t pu
  let vi := reprIdx t pv
  let idx := if ui ≤ vi then pmQuery A L.length ui (vi + 1)
             else pmQuery A L.length vi (ui + 1)
  (euler t).getD idx default

/-! ### Recurrence lemmas for the path-indexed functions -/

variable {V : Type}

theorem validPath_nil (t : Tree V) : validPath t [] = true := by
  cases t <;> rfl

theorem validPath_cons_zero (v : V) (c : Tree V) (rest : List (Tree V)) (q : List ℕ) :
    validPath (node v (c :: rest)) (0 :: q) = validPath c q := rfl

theorem validPath_cons_succ (v : V) (c : Tree V) (rest : List (Tree V)) (a : ℕ) (q : List ℕ) :
    validPath (node v (c :: rest)) ((a + 1) :: q) = validPath (node v rest) (a :: q) := rfl

theorem validAux_nil_iff (q0 : List ℕ) :
    ∀ (cs : List (Tree V)) (a : ℕ), q0 = [] → (validAux cs a q0 = true ↔ a < cs.length) := by
  intro cs
  induction cs with
  | nil =>
    intro a _
    simp [validAux]
  | cons c rest ih =>
    intro a hq
    cases a with
    | zero =>
      subst hq
      simp [validAux, validPath_nil]
    | succ a =>
      rw [show validAux (c :: rest) (a + 1) q0 = validAux rest a q0 from rfl, ih a hq]
      simp

theorem nodeAt_nil (t : Tree V) : nodeAt t [] = t := by
  cases t <;> rfl

theorem nodeAt_cons_zero (v : V) (c : Tree V) (rest : List (Tree V)) (q : List ℕ) :
    nodeAt (node v (c :: rest)) (0 :: q) = nodeAt c q := rfl

theorem nodeAtAux_valid_indep :
    ∀ (cs : List (Tree V)) (a : ℕ) (q : List ℕ) (fb fb' : Tree V),
      validAux cs a q = true → nodeAtAux fb cs a q = nodeAtAux fb' cs a q := by
  intro cs
  induction cs with
  | nil =>
    intro a q fb fb' h
    simp [validAux] at h
  | cons c rest ih =>
    intro a q fb fb' h
    cases a with
    | zero => rfl
    | succ a => exact ih a q fb fb' h

theorem nodeAt_cons_succ (v : V) (c : Tree V) (rest : List (Tree V)) (a : ℕ) (q : List ℕ)
    (h : validAux rest a q = true) :
    nodeAt (node v (c :: rest)) ((a + 1) :: q) = nodeAt (node v rest) (a :: q) :=
  nodeAtAux_valid_indep rest a q (node v (c :: rest)) (node v rest) h

theorem reprIdx_nil (t : Tree V) : reprIdx t [] = 0 := by
  cases t <;> rfl

theorem reprIdx_cons_zero (v : V) (c : Tree V) (rest : List (Tree V)) (q : List ℕ) :
    reprIdx (node v (c :: rest)) (0 :: q) = 1 + reprIdx c q := rfl

theorem reprIdx_cons_succ (v : V) (c : Tree V) (rest : List (Tree V)) (a : ℕ) (q : List ℕ) :
    reprIdx (node v (c :: rest)) ((a + 1) :: q) =
      (2 * size c - 1) + 1 + reprIdx (node v rest) (a :: q) := rfl

/-! ### Length of the Euler tour -/

theorem tourEChildren_length (r : V) (cs : List (Tree V))
    (ih : ∀ c ∈ cs, ∀ d p, (tourE c d p).length = 2 * size c - 1) :
    ∀ d p i, (tourEChildren r cs d p i).length = 2 * sizeL cs := by
  induction cs with
  | nil =>
    intro d p i
    simp [tourEChildren, sizeL]
  | cons c rest ihl =>
    intro d p i
    have h1 := ih c (List.mem_cons_self c rest) (d + 1) (p ++ [i])
    have h2 := ihl (fun c hc => ih c (List.mem_cons_of_mem _ hc)) d p (i + 1)
    have h3 := size_pos c
    simp only [tourEChildren, List.length_append, List.length_cons, h1, h2, sizeL]
    omega

theorem tourE_length (t : Tree V) : ∀ d p, (tourE t d p).length = 2 * size t - 1 := by
  induction t using indOn with
  | _ v cs ih =>
    intro d p
    have h := tourEChildren_length v cs ih d p 0
    simp only [tourE, List.length_cons, h, size]
    omega

/-! ### Entries of the Euler tour: every entry records a node of the tree,
its depth, and its address -/

theorem tourEChildren_mem (r : V) (cs : List (Tree V))
    (ih : ∀ c ∈ cs, ∀ d p e, e ∈ tourE c d p →
      ∃ q, validPath c q = true ∧ e = (idOf (nodeAt c q), d + q.length, p ++ q)) :
    ∀ d p i e, e ∈ tourEChildren r cs d p i →
      e = (r, d, p) ∨ ∃ a q, validAux cs a q = true ∧
        e = (idOf (nodeAt (node r cs) (a :: q)), d + 1 + q.length, p ++ [i + a] ++ q) := by
  induction cs with
  | nil =>
    intro d p i e he
    simp [tourEChildren] at he
  | cons c rest ihl =>
    intro d p i e he
    simp only [tourEChildren, List.mem_append, List.mem_cons] at he
    rcases he with he | he | he
    · rcases ih c (List.mem_cons_self c rest) (d + 1) (p ++ [i]) e he with ⟨q, hq, he⟩
      refine Or.inr ⟨0, q, ?_, ?_⟩
      · rw [show validAux (c :: rest) 0 q = validPath c q from rfl]
        exact hq
      · rw [he, nodeAt_cons_zero]
        simp
    · exact Or.inl he
    · rcases ihl (fun c hc => ih c (List.mem_cons_of_mem _ hc)) d p (i + 1) e he with
        he | ⟨a, q, hq, he⟩
      · exact Or.inl he
      · refine Or.inr ⟨a + 1, q, hq, ?_⟩
        rw [he, nodeAt_cons_succ r c rest a q hq]
        have harith : i + 1 + a = i + (a + 1) := by omega
        rw [harith]

theorem tourE_mem (t : Tree V) : ∀ d p e, e ∈ tourE t d p →
    ∃ q, validPath t q = true ∧ e = (idOf (nodeAt t q), d + q.length, p ++ q) := by
  induction t using indOn with
  | _ v cs ih =>
    intro d p e he
    simp only [tourE, List.mem_cons] at he
    rcases he with he | he
    · exact ⟨[], validPath_nil _, by simp [he, nodeAt_nil, idOf]⟩
    · rcases tourEChildren_mem v cs ih d p 0 e he with he | ⟨a, q, hq, he⟩
      · exact ⟨[], validPath_nil _, by simp [he, nodeAt_nil, idOf]⟩
      · refine ⟨a :: q, ?_, ?_⟩
        · cases cs with
          | nil => simp [validAux] at hq
          | cons c rest => exact hq
        · rw [he]
          simp only [List.length_cons]
          have harith : d + 1 + q.length = d + (q.length + 1) := by omega
          rw [harith]
          simp

/-! ### Addresses are separated: helper inequalities on paths -/

theorem ne_append_cons (p : List ℕ) (x : ℕ) (xs : List ℕ) : p ++ x :: xs ≠ p := by
  intro h
  have := congrArg List.length h
  simp at this

theorem head_eq_of_append_cons {p : List ℕ} {x y : ℕ} {xs ys : List ℕ}
    (h : p ++ x :: xs = p ++ y :: ys) : x = y := by
  have h2 := List.append_cancel_left h
  exact (List.cons.injEq _ _ _ _ ▸ h2).1

theorem not_pfx_append_cons_self (p : List ℕ) (x : ℕ) (xs : List ℕ) :
    ¬ (p ++ x :: xs) <+: p := by
  intro h
  have := h.length_le
  simp at this

theorem not_pfx_of_head_ne {p : List ℕ} {x y : ℕ} {xs ys : List ℕ} (h : x ≠ y) :
    ¬ (p ++ x :: xs) <+: (p ++ y :: ys) := by
  rintro ⟨t, ht⟩
  rw [List.append_assoc] at ht
  have h2 := List.append_cancel_left ht
  rw [show (x :: xs) ++ t = x :: (xs ++ t) from rfl] at h2
  exact h ((List.cons.injEq _ _ _ _ ▸ h2).1)

/-! ### The representative index is the index of the first arrival -/

theorem tourEChildren_firstOcc (r : V) (cs : List (Tree V))
    (ih : ∀ c ∈ cs, ∀ d p q, validPath c q = true →
      ∃ pre post, tourE c d p = pre ++ (idOf (nodeAt c q), d + q.length, p ++ q) :: post ∧
        pre.length = reprIdx c q ∧ ∀ e ∈ pre, e.2.2 ≠ p ++ q) :
    ∀ d p i a q, validAux cs a q = true →
      ∃ pre post, tourEChildren r cs d p i =
          pre ++ (idOf (nodeAt (node r cs) (a :: q)), d + 1 + q.length,
            p ++ [i + a] ++ q) :: post ∧
        pre.length + 1 = reprAux cs a q ∧ ∀ e ∈ pre, e.2.2 ≠ p ++ [i + a] ++ q := by
  induction cs with
  | nil =>
    intro d p i a q hq
    simp [validAux] at hq
  | cons c rest ihl =>
    intro d p i a q hq
    cases a with
    | zero =>
      rw [show validAux (c :: rest) 0 q = validPath c q from rfl] at hq
      rcases ih c (List.mem_cons_self c rest) (d + 1) (p ++ [i]) q hq with
        ⟨pre1, post1, htour, hlen, hcond⟩
      refine ⟨pre1, post1 ++ (r, d, p) :: tourEChildren r rest d p (i + 1), ?_, ?_, ?_⟩
      · rw [show tourEChildren r (c :: rest) d p i =
          tourE c (d + 1) (p ++ [i]) ++ (r, d, p) :: tourEChildren r rest d p (i + 1) from rfl]
        rw [htour, nodeAt_cons_zero]
        simp
      · rw [hlen, show reprAux (c :: rest) 0 q = 1 + reprIdx c q from rfl]
        omega
      · intro e he
        have := hcond e he
        simpa using this
    | succ a =>
      rcases ihl (fun c hc => ih c (List.mem_cons_of_mem _ hc)) d p (i + 1) a q hq with
        ⟨pre2, post2, htour, hlen, hcond⟩
      refine ⟨tourE c (d + 1) (p ++ [i]) ++ (r, d, p) :: pre2, post2, ?_, ?_, ?_⟩
      · rw [show tourEChildren r (c :: rest) d p i =
          tourE c (d + 1) (p ++ [i]) ++ (r, d, p) :: tourEChildren r rest d p (i + 1) from rfl]
        rw [htour, nodeAt_cons_succ r c rest a q hq]
        have harith : i + 1 + a = i + (a + 1) := by omega
        rw [harith]
        simp
      · have hl := tourE_length c (d + 1) (p ++ [i])
        have hs := size_pos c
        simp only [List.length_append, List.length_cons, hl]
        rw [show reprAux (c :: rest) (a + 1) q =
          (2 * size c - 1) + 1 + reprAux rest a q from rfl]
        omega
      · intro e he
        simp only [List.mem_append, List.mem_cons] at he
        rcases he with he | he | he
        · rcases tourE_mem c (d + 1) (p ++ [i]) e he with ⟨qq, _, hee⟩
          rw [hee]
          simp only []
          intro hcontra
          rw [List.append_assoc, List.append_assoc] at hcontra
          have h2 := List.append_cancel_left hcontra
          rw [show ([i] : List ℕ) ++ qq = i :: qq from rfl,
            show [i + (a + 1)] ++ q = (i + (a + 1)) :: q from rfl] at h2
          have := (List.cons.injEq _ _ _ _ ▸ h2).1
          omega
        · rw [he]
          simp only []
          intro hcontra
          rw [List.append_assoc] at hcontra
          exact ne_append_cons p (i + (a + 1)) q hcontra.symm
        · have := hcond e he
          have harith : i + 1 + a = i + (a + 1) := by omega
          rw [harith] at this
          exact this

theorem tourE_firstOcc (t : Tree V) : ∀ d p q, validPath t q = true →
    ∃ pre post, tourE t d p = pre ++ (idOf (nodeAt t q), d + q.length, p ++ q) :: post ∧
      pre.length = reprIdx t q ∧ ∀ e ∈ pre, e.2.2 ≠ p ++ q := by
  induction t using indOn with
  | _ v cs ih =>
    intro d p q hq
    match q with
    | [] =>
      refine ⟨[], tourEChildren v cs d p 0, ?_, ?_, ?_⟩
      · simp [tourE, nodeAt_nil, idOf]
      · simp [reprIdx]
      · simp
    | a :: q' =>
      cases cs with
      | nil => simp [validPath, validAux] at hq
      | cons c rest =>
        rcases tourEChildren_firstOcc v (c :: rest) ih d p 0 a q' hq with
          ⟨pre, post, htour, hlen, hcond⟩
        refine ⟨(v, d, p) :: pre, post, ?_, ?_, ?_⟩
        · rw [show tourE (node v (c :: rest)) d p =
            (v, d, p) :: tourEChildren v (c :: rest) d p 0 from rfl, htour]
          have harith : (0 : ℕ) + a = a := by omega
          rw [harith]
          have hd : d + 1 + q'.length = d + (a :: q').length := by
            simp [List.length_cons]
            omega
          rw [hd]
          simp
        · simp only [List.length_cons]
          rw [show reprIdx (node v (c :: rest)) (a :: q') = reprAux (c :: rest) a q' from rfl]
          omega
        · intro e he
          simp only [List.mem_cons] at he
          rcases he with he | he
          · rw [he]
            simp only []
            intro hcontra
            exact ne_append_cons p a q' hcontra.symm
          · have := hcond e he
            have harith : (0 : ℕ) + a = a := by omega
            rw [harith] at this
            simpa using this

/-! ### The subtree tour is a contiguous segment starting at the
representative, and it contains exactly the entries addressed below the
subtree -/

theorem tourEChildren_subtour (r : V) (cs : List (Tree V))
    (ih : ∀ c ∈ cs, ∀ d p q, validPath c q = true →
      ∃ pre post, tourE c d p =
          pre ++ tourE (nodeAt c q) (d + q.length) (p ++ q) ++ post ∧
        pre.length = reprIdx c q ∧ (∀ e ∈ pre, ¬ (p ++ q) <+: e.2.2) ∧
        ∀ e ∈ post, ¬ (p ++ q) <+: e.2.2) :
    ∀ d p i a q, validAux cs a q = true →
      ∃ pre post, tourEChildren r cs d p i =
          pre ++ tourE (nodeAt (node r cs) (a :: q)) (d + 1 + q.length)
            (p ++ [i + a] ++ q) ++ post ∧
        pre.length + 1 = reprAux cs a q ∧
        (∀ e ∈ pre, ¬ (p ++ [i + a] ++ q) <+: e.2.2) ∧
        ∀ e ∈ post, ¬ (p ++ [i + a] ++ q) <+: e.2.2 := by
  induction cs with
  | nil =>
    intro d p i a q hq
    simp [validAux] at hq
  | cons c rest ihl =>
    intro d p i a q hq
    cases a with
    | zero =>
      rw [show validAux (c :: rest) 0 q = validPath c q from rfl] at hq
      rcases ih c (List.mem_cons_self c rest) (d + 1) (p ++ [i]) q hq with
        ⟨pre1, post1, htour, hlen, hcondpre, hcondpost⟩
      refine ⟨pre1, post1 ++ (r, d, p) :: tourEChildren r rest d p (i + 1), ?_, ?_, ?_, ?_⟩
      · rw [show tourEChildren r (c :: rest) d p i =
          tourE c (d + 1) (p ++ [i]) ++ (r, d, p) :: tourEChildren r rest d p (i + 1) from rfl]
        rw [htour, nodeAt_cons_zero]
        simp
      · rw [hlen, show reprAux (c :: rest) 0 q = 1 + reprIdx c q from rfl]
        omega
      · intro e he
        have := hcondpre e he
        simpa using this
      · intro e he
        simp only [List.mem_append, List.mem_cons] at he
        rcases he with he | he | he
        · have := hcondpost e he
          simpa using this
        · rw [he]
          simp only []
          rw [List.append_assoc]
          exact not_pfx_append_cons_self p (i + 0) q
        · rcases tourEChildren_mem r rest
            (fun c hc dd pp e hee => tourE_mem c dd pp e hee) d p (i + 1) e he with
            hee | ⟨a', q', _, hee⟩
          · rw [hee]
            simp only []
            rw [List.append_assoc]
            exact not_pfx_append_cons_self p (i + 0) q
          · rw [hee]
            simp only []
            rw [List.append_assoc, List.append_assoc]
            exact not_pfx_of_head_ne (by omega)
    | succ a =>
      rcases ihl (fun c hc => ih c (List.mem_cons_of_mem _ hc)) d p (i + 1) a q hq with
        ⟨pre2, post2, htour, hlen, hcondpre, hcondpost⟩
      refine ⟨tourE c (d + 1) (p ++ [i]) ++ (r, d, p) :: pre2, post2, ?_, ?_, ?_, ?_⟩
      · rw [show tourEChildren r (c :: rest) d p i =
          tourE c (d + 1) (p ++ [i]) ++ (r, d, p) :: tourEChildren r rest d p (i + 1) from rfl]
        rw [htour, nodeAt_cons_succ r c rest a q hq]
        have harith : i + 1 + a = i + (a + 1) := by omega
        rw [harith]
        simp
      · have hl := tourE_length c (d + 1) (p ++ [i])
        have hs := size_pos c
        simp only [List.length_append, List.length_cons, hl]
        rw [show reprAux (c :: rest) (a + 1) q =
          (2 * size c - 1) + 1 + reprAux rest a q from rfl]
        omega
      · intro e he
        simp only [List.mem_append, List.mem_cons] at he
        rcases he with he | he | he
        · rcases tourE_mem c (d + 1) (p ++ [i]) e he with ⟨qq, _, hee⟩
          rw [hee]
          simp only []
          rw [List.append_assoc, List.append_assoc]
          exact not_pfx_of_head_ne (by omega)
        · rw [he]
          simp only []
          rw [List.append_assoc]
          exact not_pfx_append_cons_self p (i + (a + 1)) q
        · have := hcondpre e he
          have harith : i + 1 + a = i + (a + 1) := by omega
          rw [harith] at this
          exact this
      · intro e he
        have := hcondpost e he
        have harith : i + 1 + a = i + (a + 1) := by omega
        rw [harith] at this
        exact this

theorem tourE_subtour (t : Tree V) : ∀ d p q, validPath t q = true →
    ∃ pre post, tourE t d p =
        pre ++ tourE (nodeAt t q) (d + q.length) (p ++ q) ++ post ∧
      pre.length = reprIdx t q ∧ (∀ e ∈ pre, ¬ (p ++ q) <+: e.2.2) ∧
      ∀ e ∈ post, ¬ (p ++ q) <+: e.2.2 := by
  induction t using indOn with
  | _ v cs ih =>
    intro d p q hq
    match q with
    | [] =>
      refine ⟨[], [], ?_, ?_, by simp, by simp⟩
      · simp [nodeAt_nil]
      · simp [reprIdx_nil]
    | a :: q' =>
      cases cs with
      | nil => simp [validPath, validAux] at hq
      | cons c rest =>
        rcases tourEChildren_subtour v (c :: rest) ih d p 0 a q' hq with
          ⟨pre, post, htour, hlen, hcondpre, hcondpost⟩
        have harith : (0 : ℕ) + a = a := by omega
        rw [harith] at htour hcondpre hcondpost
        refine ⟨(v, d, p) :: pre, post, ?_, ?_, ?_, ?_⟩
        · rw [show tourE (node v (c :: rest)) d p =
            (v, d, p) :: tourEChildren v (c :: rest) d p 0 from rfl, htour]
          have hd : d + 1 + q'.length = d + (a :: q').length := by
            simp [List.length_cons]
            omega
          rw [hd]
          simp
        · simp only [List.length_cons]
          rw [show reprIdx (node v (c :: rest)) (a :: q') = reprAux (c :: rest) a q' from rfl]
          omega
        · intro e he
          simp only [List.mem_cons] at he
          rcases he with he | he
          · rw [he]
            simp only []
            exact not_pfx_append_cons_self p a q'
          · have := hcondpre e he
            simpa using this
        · intro e he
          have := hcondpost e he
          simpa using this

/-! ### Immediately after each child segment the parent is re-emitted -/

theorem tourEChildren_afterChild (r : V) (cs : List (Tree V)) :
    ∀ d p i a, a < cs.length →
      ∃ pre post, tourEChildren r cs d p i =
          pre ++ tourE (nodeAt (node r cs) [a]) (d + 1) (p ++ [i + a]) ++ (r, d, p) :: post ∧
        pre.length + 1 = reprAux cs a [] := by
  induction cs with
  | nil =>
    intro d p i a ha
    simp at ha
  | cons c rest ihl =>
    intro d p i a ha
    cases a with
    | zero =>
      refine ⟨[], tourEChildren r rest d p (i + 1), ?_, ?_⟩
      · rw [show tourEChildren r (c :: rest) d p i =
          tourE c (d + 1) (p ++ [i]) ++ (r, d, p) :: tourEChildren r rest d p (i + 1) from rfl]
        rw [nodeAt_cons_zero, nodeAt_nil]
        simp
      · rw [show reprAux (c :: rest) 0 [] = 1 + reprIdx c [] from rfl, reprIdx_nil]
        simp
    | succ a =>
      rcases ihl d p (i + 1) a (by simpa using ha) with ⟨pre2, post2, htour, hlen⟩
      refine ⟨tourE c (d + 1) (p ++ [i]) ++ (r, d, p) :: pre2, post2, ?_, ?_⟩
      · rw [show tourEChildren r (c :: rest) d p i =
          tourE c (d + 1) (p ++ [i]) ++ (r, d, p) :: tourEChildren r rest d p (i + 1) from rfl]
        rw [htour, nodeAt_cons_succ r c rest a []
          ((validAux_nil_iff [] rest a rfl).mpr (by simpa using ha))]
        have harith : i + 1 + a = i + (a + 1) := by omega
        rw [harith]
        simp
      · have hl := tourE_length c (d + 1) (p ++ [i])
        have hs := size_pos c
        simp only [List.length_append, List.length_cons, hl]
        rw [show reprAux (c :: rest) (a + 1) [] =
          (2 * size c - 1) + 1 + reprAux rest a [] from rfl]
        omega

theorem tourE_afterChild (v : V) (cs : List (Tree V)) : ∀ d p a, a < cs.length →
    ∃ pre post, tourE (node v cs) d p =
        pre ++ tourE (nodeAt (node v cs) [a]) (d + 1) (p ++ [a]) ++ (v, d, p) :: post ∧
      pre.length = reprIdx (node v cs) [a] := by
  intro d p a ha
  rcases tourEChildren_afterChild v cs d p 0 a ha with ⟨pre, post, htour, hlen⟩
  have harith : (0 : ℕ) + a = a := by omega
  rw [harith] at htour
  refine ⟨(v, d, p) :: pre, post, ?_, ?_⟩
  · rw [show tourE (node v cs) d p = (v, d, p) :: tourEChildren v cs d p 0 from rfl, htour]
    simp
  · simp only [List.length_cons]
    cases cs with
    | nil => simp at ha
    | cons c rest =>
      rw [show reprIdx (node v (c :: rest)) [a] = reprAux (c :: rest) a [] from rfl]
      omega

/-! ### Composition of the path-indexed functions along path concatenation -/

theorem validAux_lt : ∀ (cs : List (Tree V)) (a : ℕ) (q : List ℕ),
    validAux cs a q = true → a < cs.length := by
  intro cs
  induction cs with
  | nil => intro a q h; simp [validAux] at h
  | cons c rest ih =>
    intro a q h
    cases a with
    | zero => simp
    | succ a =>
      have := ih a q h
      simp only [List.length_cons]
      omega

theorem reprAux_pos : ∀ (cs : List (Tree V)) (a : ℕ) (q : List ℕ),
    validAux cs a q = true → 1 ≤ reprAux cs a q := by
  intro cs
  induction cs with
  | nil => intro a q h; simp [validAux] at h
  | cons c rest ih =>
    intro a q h
    cases a with
    | zero =>
      rw [show reprAux (c :: rest) 0 q = 1 + reprIdx c q from rfl]
      omega
    | succ a =>
      have := ih a q h
      rw [show reprAux (c :: rest) (a + 1) q =
        (2 * size c - 1) + 1 + reprAux rest a q from rfl]
      omega

theorem validAux_append (cs : List (Tree V))
    (ih : ∀ c ∈ cs, ∀ q q'', validPath c q = true →
      validPath c (q ++ q'') = validPath (nodeAt c q) q'') :
    ∀ a q q'' fb, validAux cs a q = true →
      validAux cs a (q ++ q'') = validPath (nodeAtAux fb cs a q) q'' := by
  induction cs with
  | nil => intro a q q'' fb h; simp [validAux] at h
  | cons c rest ihl =>
    intro a q q'' fb h
    cases a with
    | zero => exact ih c (List.mem_cons_self c rest) q q'' h
    | succ a => exact ihl (fun c hc => ih c (List.mem_cons_of_mem _ hc)) a q q'' fb h

theorem validPath_append (t : Tree V) : ∀ q q'', validPath t q = true →
    validPath t (q ++ q'') = validPath (nodeAt t q) q'' := by
  induction t using indOn with
  | _ v cs ih =>
    intro q q'' hq
    match q with
    | [] => simp [nodeAt_nil]
    | a :: q' =>
      rw [show (a :: q') ++ q'' = a :: (q' ++ q'') from rfl]
      rw [show validPath (node v cs) (a :: (q' ++ q'')) = validAux cs a (q' ++ q'') from rfl]
      rw [show nodeAt (node v cs) (a :: q') = nodeAtAux (node v cs) cs a q' from rfl]
      exact validAux_append cs ih a q' q'' (node v cs) hq

theorem nodeAtAux_append (cs : List (Tree V))
    (ih : ∀ c ∈ cs, ∀ q q'', validPath c q = true →
      nodeAt c (q ++ q'') = nodeAt (nodeAt c q) q'') :
    ∀ a q q'' fb, validAux cs a q = true →
      nodeAtAux fb cs a (q ++ q'') = nodeAt (nodeAtAux fb cs a q) q'' := by
  induction cs with
  | nil => intro a q q'' fb h; simp [validAux] at h
  | cons c rest ihl =>
    intro a q q'' fb h
    cases a with
    | zero => exact ih c (List.mem_cons_self c rest) q q'' h
    | succ a => exact ihl (fun c hc => ih c (List.mem_cons_of_mem _ hc)) a q q'' fb h

theorem nodeAt_append (t : Tree V) : ∀ q q'', validPath t q = true →
    nodeAt t (q ++ q'') = nodeAt (nodeAt t q) q'' := by
  induction t using indOn with
  | _ v cs ih =>
    intro q q'' hq
    match q with
    | [] => simp [nodeAt_nil]
    | a :: q' =>
      rw [show (a :: q') ++ q'' = a :: (q' ++ q'') from rfl]
      rw [show nodeAt (node v cs) (a :: (q' ++ q'')) = nodeAtAux (node v cs) cs a (q' ++ q'')
        from rfl]
      rw [show nodeAt (node v cs) (a :: q') = nodeAtAux (node v cs) cs a q' from rfl]
      exact nodeAtAux_append cs ih a q' q'' (node v cs) hq

theorem reprAux_append (cs : List (Tree V))
    (ih : ∀ c ∈ cs, ∀ q q'', validPath c q = true →
      reprIdx c (q ++ q'') = reprIdx c q + reprIdx (nodeAt c q) q'') :
    ∀ a q q'' fb, validAux cs a q = true →
      reprAux cs a (q ++ q'') = reprAux cs a q + reprIdx (nodeAtAux fb cs a q) q'' := by
  induction cs with
  | nil => intro a q q'' fb h; simp [validAux] at h
  | cons c rest ihl =>
    intro a q q'' fb h
    cases a with
    | zero =>
      rw [show reprAux (c :: rest) 0 (q ++ q'') = 1 + reprIdx c (q ++ q'') from rfl]
      rw [show reprAux (c :: rest) 0 q = 1 + reprIdx c q from rfl]
      rw [show nodeAtAux fb (c :: rest) 0 q = nodeAt c q from rfl]
      rw [ih c (List.mem_cons_self c rest) q q'' h]
      omega
    | succ a =>
      rw [show reprAux (c :: rest) (a + 1) (q ++ q'') =
        (2 * size c - 1) + 1 + reprAux rest a (q ++ q'') from rfl]
      rw [show reprAux (c :: rest) (a + 1) q =
        (2 * size c - 1) + 1 + reprAux rest a q from rfl]
      rw [show nodeAtAux fb (c :: rest) (a + 1) q = nodeAtAux fb rest a q from rfl]
      rw [ihl (fun c hc => ih c (List.mem_cons_of_mem _ hc)) a q q'' fb h]
      omega

theorem reprIdx_append (t : Tree V) : ∀ q q'', validPath t q = true →
    reprIdx t (q ++ q'') = reprIdx t q + reprIdx (nodeAt t q) q'' := by
  induction t using indOn with
  | _ v cs ih =>
    intro q q'' hq
    match q with
    | [] => simp [nodeAt_nil, reprIdx_nil]
    | a :: q' =>
      rw [show (a :: q') ++ q'' = a :: (q' ++ q'') from rfl]
      rw [show reprIdx (node v cs) (a :: (q' ++ q'')) = reprAux cs a (q' ++ q'') from rfl]
      rw [show reprIdx (node v cs) (a :: q') = reprAux cs a q' from rfl]
      rw [show nodeAt (node v cs) (a :: q') = nodeAtAux (node v cs) cs a q' from rfl]
      exact reprAux_append cs ih a q' q'' (node v cs) hq

theorem reprIdx_lt (t : Tree V) (q : List ℕ) (hq : validPath t q = true) :
    reprIdx t q < 2 * size t - 1 := by
  rcases tourE_firstOcc t 0 [] q hq with ⟨pre, post, htour, hlen, _⟩
  have hl := congrArg List.length htour
  rw [tourE_length t 0 []] at hl
  simp only [List.length_append, List.length_cons] at hl
  omega

theorem reprAux_mono (cs : List (Tree V)) : ∀ (a b : ℕ) (q : List ℕ) (fb : Tree V),
    a < b → validAux cs b q = true →
      reprAux cs a [] + 2 * size (nodeAtAux fb cs a []) ≤ reprAux cs b q := by
  induction cs with
  | nil => intro a b q fb _ h; simp [validAux] at h
  | cons c rest ih =>
    intro a b q fb hab hb
    cases a with
    | zero =>
      cases b with
      | zero => omega
      | succ b =>
        have h1 := reprAux_pos rest b q hb
        have h2 := size_pos c
        rw [show reprAux (c :: rest) 0 ([] : List ℕ) = 1 + reprIdx c [] from rfl, reprIdx_nil]
        rw [show nodeAtAux fb (c :: rest) 0 ([] : List ℕ) = nodeAt c [] from rfl, nodeAt_nil]
        rw [show reprAux (c :: rest) (b + 1) q =
          (2 * size c - 1) + 1 + reprAux rest b q from rfl]
        omega
    | succ a =>
      cases b with
      | zero => omega
      | succ b =>
        have := ih a b q fb (by omega) hb
        rw [show reprAux (c :: rest) (a + 1) ([] : List ℕ) =
          (2 * size c - 1) + 1 + reprAux rest a [] from rfl]
        rw [show nodeAtAux fb (c :: rest) (a + 1) ([] : List ℕ) = nodeAtAux fb rest a []
          from rfl]
        rw [show reprAux (c :: rest) (b + 1) q =
          (2 * size c - 1) + 1 + reprAux rest b q from rfl]
        omega

/-! ### The ±1 property of the level array -/

def pmStep (a b : ℕ) : Prop := b = a + 1 ∨ a = b + 1

theorem tourEChildren_chain (r : V) (cs : List (Tree V))
    (ih : ∀ c ∈ cs, ∀ d p, List.Chain' pmStep ((tourE c d p).map fun e => e.2.1) ∧
      ((tourE c d p).map fun e => e.2.1).head? = some d ∧
      ((tourE c d p).map fun e => e.2.1).getLast? = some d) :
    ∀ d p i, List.Chain' pmStep (d :: ((tourEChildren r cs d p i).map fun e => e.2.1)) ∧
      (d :: ((tourEChildren r cs d p i).map fun e => e.2.1)).getLast? = some d := by
  induction cs with
  | nil =>
    intro d p i
    constructor
    · simp [tourEChildren]
    · simp [tourEChildren]
  | cons c rest ihl =>
    intro d p i
    have hc := ih c (List.mem_cons_self c rest) (d + 1) (p ++ [i])
    have hr := ihl (fun c hc => ih c (List.mem_cons_of_mem _ hc)) d p (i + 1)
    set Lc := (tourE c (d + 1) (p ++ [i])).map fun e => e.2.1 with hLc
    set Lr := (tourEChildren r rest d p (i + 1)).map fun e => e.2.1 with hLr
    have hsplit : d :: ((tourEChildren r (c :: rest) d p i).map fun e => e.2.1) =
        (d :: Lc) ++ (d :: Lr) := by
      rw [show tourEChildren r (c :: rest) d p i =
        tourE c (d + 1) (p ++ [i]) ++ (r, d, p) :: tourEChildren r rest d p (i + 1) from rfl]
      simp [hLc, hLr]
    rw [hsplit]
    have hlastc : (d :: Lc).getLast? = some (d + 1) := by
      rw [show d :: Lc = [d] ++ Lc from rfl, List.getLast?_append, hc.2.2]
      rfl
    constructor
    · rw [List.chain'_append]
      refine ⟨?_, hr.1, ?_⟩
      · rw [List.chain'_cons']
        refine ⟨?_, hc.1⟩
        intro y hy
        rw [hc.2.1] at hy
        simp at hy
        subst hy
        exact Or.inl rfl
      · intro x hx y hy
        rw [hlastc] at hx
        simp at hx
        simp at hy
        subst hx
        subst hy
        exact Or.inr rfl
    · rw [List.getLast?_append, hr.2]
      rfl

theorem tourE_chain (t : Tree V) : ∀ d p,
    List.Chain' pmStep ((tourE t d p).map fun e => e.2.1) ∧
      ((tourE t d p).map fun e => e.2.1).head? = some d ∧
      ((tourE t d p).map fun e => e.2.1).getLast? = some d := by
  induction t using indOn with
  | _ v cs ih =>
    intro d p
    have h := tourEChildren_chain v cs ih d p 0
    have heq : (tourE (node v cs) d p).map (fun e => e.2.1) =
        d :: ((tourEChildren v cs d p 0).map fun e => e.2.1) := by
      rw [show tourE (node v cs) d p = (v, d, p) :: tourEChildren v cs d p 0 from rfl]
      rfl
    rw [heq]
    exact ⟨h.1, rfl, h.2⟩

/-! ### Longest common prefix of two addresses -/

theorem lcp_self : ∀ p : List ℕ, lcp p p = p := by
  intro p
  induction p with
  | nil => rfl
  | cons a p ih => simp [lcp, ih]

theorem lcp_pfx : ∀ p q : List ℕ, lcp p q <+: p ∧ lcp p q <+: q := by
  intro p
  induction p with
  | nil => intro q; simp [lcp]
  | cons a p ih =>
    intro q
    cases q with
    | nil => simp [lcp]
    | cons b q =>
      by_cases hab : a = b
      · subst hab
        rw [show lcp (a :: p) (a :: q) = a :: lcp p q from by simp [lcp]]
        rcases ih q with ⟨h1, h2⟩
        exact ⟨List.cons_prefix_cons.mpr ⟨rfl, h1⟩, List.cons_prefix_cons.mpr ⟨rfl, h2⟩⟩
      · rw [show lcp (a :: p) (b :: q) = [] from by simp [lcp, hab]]
        simp

theorem pfx_lcp : ∀ r p q : List ℕ, r <+: p → r <+: q → r <+: lcp p q := by
  intro r
  induction r with
  | nil => intro p q _ _; simp
  | cons x r ih =>
    intro p q hp hq
    rcases hp with ⟨tp, htp⟩
    rcases hq with ⟨tq, htq⟩
    rw [show (x :: r) ++ tp = x :: (r ++ tp) from rfl] at htp
    rw [show (x :: r) ++ tq = x :: (r ++ tq) from rfl] at htq
    rw [← htp, ← htq]
    rw [show lcp (x :: (r ++ tp)) (x :: (r ++ tq)) = x :: lcp (r ++ tp) (r ++ tq) from by
      simp [lcp]]
    exact List.cons_prefix_cons.mpr
      ⟨rfl, ih (r ++ tp) (r ++ tq) (List.prefix_append r tp) (List.prefix_append r tq)⟩

theorem lcp_comm : ∀ p q : List ℕ, lcp p q = lcp q p := by
  intro p
  induction p with
  | nil => intro q; cases q <;> rfl
  | cons a p ih =>
    intro q
    cases q with
    | nil => rfl
    | cons b q =>
      by_cases hab : a = b
      · subst hab
        simp [lcp, ih]
      · have hba : ¬ b = a := fun h => hab h.symm
        simp [lcp, hab, hba]

theorem lcp_split : ∀ p q : List ℕ, p = lcp p q ∨ q = lcp p q ∨
    ∃ a b p' q', a ≠ b ∧ p = lcp p q ++ a :: p' ∧ q = lcp p q ++ b :: q' := by
  intro p
  induction p with
  | nil => intro q; exact Or.inl rfl
  | cons a p ih =>
    intro q
    cases q with
    | nil => exact Or.inr (Or.inl rfl)
    | cons b q =>
      by_cases hab : a = b
      · subst hab
        rw [show lcp (a :: p) (a :: q) = a :: lcp p q from by simp [lcp]]
        rcases ih q with h | h | ⟨x, y, p', q', hxy, hp, hq⟩
        · exact Or.inl (by rw [← h])
        · exact Or.inr (Or.inl (by rw [← h]))
        · refine Or.inr (Or.inr ⟨x, y, p', q', hxy, ?_, ?_⟩)
          · rw [show (a :: lcp p q) ++ x :: p' = a :: (lcp p q ++ x :: p') from rfl, ← hp]
          · rw [show (a :: lcp p q) ++ y :: q' = a :: (lcp p q ++ y :: q') from rfl, ← hq]
      · rw [show lcp (a :: p) (b :: q) = [] from by simp [lcp, hab]]
        exact Or.inr (Or.inr ⟨a, b, p, q, hab, rfl, rfl⟩)

/-! ### Validity restricted to a prefix of a path -/

theorem validAux_of_append (cs : List (Tree V))
    (ih : ∀ c ∈ cs, ∀ q q2, validPath c (q ++ q2) = true → validPath c q = true) :
    ∀ a q q2, validAux cs a (q ++ q2) = true → validAux cs a q = true := by
  induction cs with
  | nil => intro a q q2 h; simp [validAux] at h
  | cons c rest ihl =>
    intro a q q2 h
    cases a with
    | zero => exact ih c (List.mem_cons_self c rest) q q2 h
    | succ a => exact ihl (fun c hc => ih c (List.mem_cons_of_mem _ hc)) a q q2 h

theorem validPath_of_append (t : Tree V) : ∀ q q2,
    validPath t (q ++ q2) = true → validPath t q = true := by
  induction t using indOn with
  | _ v cs ih =>
    intro q q2 hq
    match q with
    | [] => exact validPath_nil _
    | a :: q' =>
      rw [show (a :: q') ++ q2 = a :: (q' ++ q2) from rfl] at hq
      exact validAux_of_append cs ih a q' q2 hq

theorem validPath_of_pfx (t : Tree V) {p r : List ℕ}
    (hp : validPath t p = true) (hpre : r <+: p) : validPath t r = true := by
  rcases hpre with ⟨tl, htl⟩
  exact validPath_of_append t r tl (htl ▸ hp)

end Tree

/-! ### Positional access helpers for lists -/

theorem getD_append_at {α : Type} :
    ∀ (pre : List α) (x : α) (post : List α) (dflt : α),
      (pre ++ x :: post).getD pre.length dflt = x := by
  intro pre
  induction pre with
  | nil => intro x post dflt; rfl
  | cons a pre ih => intro x post dflt; exact ih x post dflt

theorem getD_append_of_lt {α : Type} :
    ∀ (pre suf : List α) (k : ℕ) (dflt : α), k < pre.length →
      (pre ++ suf).getD k dflt = pre.getD k dflt := by
  intro pre
  induction pre with
  | nil => intro suf k dflt h; simp at h
  | cons a pre ih =>
    intro suf k dflt h
    cases k with
    | zero => rfl
    | succ k => exact ih suf k dflt (by simpa using h)

theorem getD_append_ge {α : Type} :
    ∀ (pre suf : List α) (k : ℕ) (dflt : α), pre.length ≤ k →
      (pre ++ suf).getD k dflt = suf.getD (k - pre.length) dflt := by
  intro pre
  induction pre with
  | nil => intro suf k dflt h; simp
  | cons a pre ih =>
    intro suf k dflt h
    cases k with
    | zero => simp at h
    | succ k =>
      rw [show ((a :: pre) ++ suf).getD (k + 1) dflt = (pre ++ suf).getD k dflt from rfl]
      rw [ih suf k dflt (by simpa using h)]
      have harith : k + 1 - (a :: pre).length = k - pre.length := by
        simp only [List.length_cons]
        omega
      rw [harith]

theorem getD_mem {α : Type} :
    ∀ (l : List α) (k : ℕ) (dflt : α), k < l.length → l.getD k dflt ∈ l := by
  intro l
  induction l with
  | nil => intro k dflt h; simp at h
  | cons a l ih =>
    intro k dflt h
    cases k with
    | zero => exact List.mem_cons_self a l
    | succ k => exact List.mem_cons_of_mem a (ih k dflt (by simpa using h))

theorem getD_map {α β : Type} (f : α → β) :
    ∀ (l : List α) (k : ℕ) (d : β) (x : α), k < l.length →
      (l.map f).getD k d = f (l.getD k x) := by
  intro l
  induction l with
  | nil => intro k d x h; simp at h
  | cons a l ih =>
    intro k d x h
    cases k with
    | zero => rfl
    | succ k => exact ih k d x (by simpa using h)

namespace Tree

/-! ### Top-level facts about `euler`, `levelL`, `pathsL` and `reprIdx` -/

theorem euler_length (t : Tree V) : (euler t).length = 2 * size t - 1 := by
  simp [euler, tourE_length]

theorem levelL_length (t : Tree V) : (levelL t).length = 2 * size t - 1 := by
  simp [levelL, tourE_length]

theorem pathsL_length (t : Tree V) : (pathsL t).length = 2 * size t - 1 := by
  simp [pathsL, tourE_length]

/-- Every index of the tour addresses a node: its level entry is the node's
depth and its Euler entry is the node's id. -/
theorem entry_spec (t : Tree V) (k : ℕ) (hk : k < (tourE t 0 []).length) (dflt : V) :
    validPath t ((pathsL t).getD k []) = true ∧
    (levelL t).getD k 0 = ((pathsL t).getD k []).length ∧
    (euler t).getD k dflt = idOf (nodeAt t ((pathsL t).getD k [])) := by
  have hmem := getD_mem (tourE t 0 []) k (idOf t, 0, []) hk
  rcases tourE_mem t 0 [] _ hmem with ⟨q, hq, he⟩
  have hP : (pathsL t).getD k [] = q := by
    rw [pathsL, getD_map (fun e => e.2.2) (tourE t 0 []) k [] (idOf t, 0, []) hk, he]
    simp
  have hL : (levelL t).getD k 0 = q.length := by
    rw [levelL, getD_map (fun e => e.2.1) (tourE t 0 []) k 0 (idOf t, 0, []) hk, he]
    simp
  have hE : (euler t).getD k dflt = idOf (nodeAt t q) := by
    rw [euler, getD_map (fun e => e.1) (tourE t 0 []) k dflt (idOf t, 0, []) hk, he]
  rw [hP, hL, hE]
  exact ⟨hq, rfl, rfl⟩

/-- The stored representative index of a node is the index of the tour entry
of the first arrival at that node: the entry there has exactly its address,
and no earlier entry does. -/
theorem repr_firstOcc_top (t : Tree V) (q : List ℕ) (hq : validPath t q = true) :
    reprIdx t q < (tourE t 0 []).length ∧
    (pathsL t).getD (reprIdx t q) [] = q ∧
    ∀ k, k < reprIdx t q → (pathsL t).getD k [] ≠ q := by
  rcases tourE_firstOcc t 0 [] q hq with ⟨pre, post, htour, hlen, hcond⟩
  have hl := congrArg List.length htour
  simp only [List.length_append, List.length_cons] at hl
  have hklen : reprIdx t q < (tourE t 0 []).length := by omega
  refine ⟨hklen, ?_, ?_⟩
  · rw [pathsL, getD_map (fun e => e.2.2) (tourE t 0 []) (reprIdx t q) [] (idOf t, 0, []) hklen]
    rw [htour, ← hlen, getD_append_at]
    simp
  · intro k hk
    have hklt : k < (tourE t 0 []).length := by omega
    rw [pathsL, getD_map (fun e => e.2.2) (tourE t 0 []) k [] (idOf t, 0, []) hklt]
    rw [htour, getD_append_of_lt pre _ k _ (by omega)]
    have hmem := getD_mem pre k (idOf t, 0, []) (by omega)
    have := hcond _ hmem
    simpa using this

/-- Every index inside the span of a subtree's segment of the tour is
addressed below that subtree. -/
theorem span_pfx (t : Tree V) (q : List ℕ) (hq : validPath t q = true) :
    ∀ k, reprIdx t q ≤ k → k < reprIdx t q + (2 * size (nodeAt t q) - 1) →
      q <+: (pathsL t).getD k [] := by
  rcases tourE_subtour t 0 [] q hq with ⟨pre, post, htour, hlen, _, _⟩
  intro k hk1 hk2
  have hmidlen := tourE_length (nodeAt t q) (0 + q.length) ([] ++ q)
  have hl := congrArg List.length htour
  simp only [List.length_append, hmidlen] at hl
  have hklen : k < (tourE t 0 []).length := by omega
  rw [pathsL, getD_map (fun e => e.2.2) (tourE t 0 []) k [] (idOf t, 0, []) hklen]
  rw [htour, List.append_assoc, getD_append_ge pre _ k _ (by omega)]
  rw [getD_append_of_lt _ post (k - pre.length) _ (by omega)]
  have hmem := getD_mem (tourE (nodeAt t q) (0 + q.length) ([] ++ q)) (k - pre.length)
    (idOf t, 0, []) (by omega)
  rcases tourE_mem (nodeAt t q) (0 + q.length) ([] ++ q) _ hmem with ⟨q'', _, he⟩
  rw [he]
  simp only []
  exact ⟨q'', by simp⟩

/-- The representative of a descendant lies inside the ancestor's span. -/
theorem repr_desc_span (t : Tree V) (q q'' : List ℕ) (hq : validPath t q = true)
    (hq'' : validPath (nodeAt t q) q'' = true) :
    reprIdx t q ≤ reprIdx t (q ++ q'') ∧
    reprIdx t (q ++ q'') < reprIdx t q + (2 * size (nodeAt t q) - 1) := by
  rw [reprIdx_append t q q'' hq]
  have := reprIdx_lt (nodeAt t q) q'' hq''
  omega

/-- Between the representatives of nodes lying in two different child
subtrees of a common node there is a tour entry addressing that node. -/
theorem occBetween (t : Tree V) (r : List ℕ) (a b : ℕ) (pu' pv' : List ℕ)
    (hu : validPath t (r ++ a :: pu') = true) (hv : validPath t (r ++ b :: pv') = true)
    (hab : a < b) :
    ∃ m, reprIdx t (r ++ a :: pu') ≤ m ∧ m ≤ reprIdx t (r ++ b :: pv') ∧
      (pathsL t).getD m [] = r := by
  have hr : validPath t r = true :=
    validPath_of_append t r (a :: pu') hu
  have hsu : validPath (nodeAt t r) (a :: pu') = true := by
    rw [← validPath_append t r (a :: pu') hr]
    exact hu
  have hsv : validPath (nodeAt t r) (b :: pv') = true := by
    rw [← validPath_append t r (b :: pv') hr]
    exact hv
  rcases tourE_subtour t 0 [] r hr with ⟨preR, postR, htourR, hlenR, _, _⟩
  cases hs : nodeAt t r with
  | node vs css =>
    rw [hs] at hsu hsv
    have ha : a < css.length := validAux_lt css a pu' hsu
    rcases tourE_afterChild vs css (0 + r.length) ([] ++ r) a ha with
      ⟨pre1, post1, htour1, hlen1⟩
    have hmid1len := tourE_length (nodeAt (node vs css) [a]) (0 + r.length + 1)
      (([] ++ r) ++ [a])
    -- the flat decomposition of the whole tour around the parent re-entry
    have hflat : tourE t 0 [] =
        (preR ++ pre1 ++ tourE (nodeAt (node vs css) [a]) (0 + r.length + 1)
          (([] ++ r) ++ [a])) ++
        (vs, 0 + r.length, [] ++ r) :: (post1 ++ postR) := by
      rw [htourR, hs, htour1]
      simp [List.append_assoc]
    set m := preR.length + pre1.length +
      (2 * size (nodeAt (node vs css) [a]) - 1) with hm
    have hmlen : ((preR ++ pre1 ++ tourE (nodeAt (node vs css) [a]) (0 + r.length + 1)
        (([] ++ r) ++ [a]))).length = m := by
      simp only [List.length_append, hmid1len]
    have hmtot : m < (tourE t 0 []).length := by
      have := congrArg List.length hflat
      simp only [List.length_append, List.length_cons] at this
      omega
    have hPm : (pathsL t).getD m [] = r := by
      rw [pathsL, getD_map (fun e => e.2.2) (tourE t 0 []) m [] (idOf t, 0, []) hmtot]
      rw [hflat, ← hmlen, getD_append_at]
      simp
    -- representative arithmetic
    have hva : validPath (nodeAt t r) [a] = true := by
      rw [hs]
      rw [show validPath (node vs css) [a] = validAux css a [] from rfl]
      exact (validAux_nil_iff [] css a rfl).mpr ha
    have hrepru : reprIdx t (r ++ a :: pu') =
        reprIdx t r + reprIdx (nodeAt t r) (a :: pu') := reprIdx_append t r (a :: pu') hr
    have hreprv : reprIdx t (r ++ b :: pv') =
        reprIdx t r + reprIdx (nodeAt t r) (b :: pv') := reprIdx_append t r (b :: pv') hr
    have hsplitu : reprIdx (nodeAt t r) (a :: pu') =
        reprIdx (nodeAt t r) [a] + reprIdx (nodeAt (nodeAt t r) [a]) pu' := by
      rw [show (a :: pu') = [a] ++ pu' from rfl]
      exact reprIdx_append (nodeAt t r) [a] pu' hva
    have hvca : validPath (nodeAt (nodeAt t r) [a]) pu' = true := by
      rw [← validPath_append (nodeAt t r) [a] pu' hva]
      rw [show ([a] : List ℕ) ++ pu' = a :: pu' from rfl]
      rw [hs]
      exact hsu
    have hboundu : reprIdx (nodeAt (nodeAt t r) [a]) pu' <
        2 * size (nodeAt (nodeAt t r) [a]) - 1 :=
      reprIdx_lt _ pu' hvca
    have hreprIa : reprIdx (nodeAt t r) [a] = pre1.length := by
      rw [hs]
      omega
    have hmono : reprIdx (nodeAt t r) [a] + 2 * size (nodeAt (nodeAt t r) [a]) ≤
        reprIdx (nodeAt t r) (b :: pv') := by
      rw [hs]
      rw [show reprIdx (node vs css) (b :: pv') = reprAux css b pv' from rfl]
      rw [show reprIdx (node vs css) [a] = reprAux css a [] from rfl]
      rw [show nodeAt (node vs css) [a] = nodeAtAux (node vs css) css a [] from rfl]
      exact reprAux_mono css a b pv' (node vs css) hab hsv
    refine ⟨m, ?_, ?_, hPm⟩
    · have hs1 : size (nodeAt (nodeAt t r) [a]) = size (nodeAt (node vs css) [a]) := by
        rw [hs]
      omega
    · have hs1 : size (nodeAt (nodeAt t r) [a]) = size (nodeAt (node vs css) [a]) := by
        rw [hs]
      have hsp := size_pos (nodeAt (node vs css) [a])
      omega

/-- Correctness of `lca::query`: for any two nodes of the tree, the query
returns the id of the node addressed by the longest common prefix of their
addresses — their deepest common ancestor. -/
theorem lcaQuery_eq_lcp {V : Type} [Inhabited V] (t : Tree V) (pu pv : List ℕ)
    (hu : validPath t pu = true) (hv : validPath t pv = true) :
    lcaQuery t pu pv = idOf (nodeAt t (lcp pu pv)) := by
  have hrpu : lcp pu pv <+: pu := (lcp_pfx pu pv).1
  have hrpv : lcp pu pv <+: pv := (lcp_pfx pu pv).2
  have hr : validPath t (lcp pu pv) = true := validPath_of_pfx t hu hrpu
  obtain ⟨ru', hru'⟩ := hrpu
  obtain ⟨rv', hrv'⟩ := hrpv
  have hvru : validPath (nodeAt t (lcp pu pv)) ru' = true := by
    rw [← validPath_append t (lcp pu pv) ru' hr, hru']
    exact hu
  have hvrv : validPath (nodeAt t (lcp pu pv)) rv' = true := by
    rw [← validPath_append t (lcp pu pv) rv' hr, hrv']
    exact hv
  have huilen : reprIdx t pu < (tourE t 0 []).length := (repr_firstOcc_top t pu hu).1
  have hvilen : reprIdx t pv < (tourE t 0 []).length := (repr_firstOcc_top t pv hv).1
  have hlenL : (levelL t).length = (tourE t 0 []).length := by simp [levelL]
  have hru_ge : reprIdx t (lcp pu pv) ≤ reprIdx t pu := by
    have h := reprIdx_append t (lcp pu pv) ru' hr
    rw [hru'] at h
    omega
  have hrv_ge : reprIdx t (lcp pu pv) ≤ reprIdx t pv := by
    have h := reprIdx_append t (lcp pu pv) rv' hr
    rw [hrv'] at h
    omega
  have hru_lt : reprIdx t pu <
      reprIdx t (lcp pu pv) + (2 * size (nodeAt t (lcp pu pv)) - 1) := by
    have h := (repr_desc_span t (lcp pu pv) ru' hr hvru).2
    rw [hru'] at h
    exact h
  have hrv_lt : reprIdx t pv <
      reprIdx t (lcp pu pv) + (2 * size (nodeAt t (lcp pu pv)) - 1) := by
    have h := (repr_desc_span t (lcp pu pv) rv' hr hvrv).2
    rw [hrv'] at h
    exact h
  have hlo : min (reprIdx t pu) (reprIdx t pv) ≤ max (reprIdx t pu) (reprIdx t pv) := by
    omega
  have hpm := pmQuery_correct (fun i => (((levelL t).getD i 0 : ℕ) : ℤ)) (levelL t).length
    (min (reprIdx t pu) (reprIdx t pv)) (max (reprIdx t pu) (reprIdx t pv) + 1)
    (by omega) (by omega)
  obtain ⟨hk1, hk2, hk3⟩ := hpm
  set k := pmQuery (fun i => (((levelL t).getD i 0 : ℕ) : ℤ)) (levelL t).length
    (min (reprIdx t pu) (reprIdx t pv)) (max (reprIdx t pu) (reprIdx t pv) + 1) with hkdef
  have hklen : k < (tourE t 0 []).length := by omega
  have hpfxk : lcp pu pv <+: (pathsL t).getD k [] :=
    span_pfx t (lcp pu pv) hr k (by omega) (by omega)
  have hexm : ∃ m, min (reprIdx t pu) (reprIdx t pv) ≤ m ∧
      m ≤ max (reprIdx t pu) (reprIdx t pv) ∧ (pathsL t).getD m [] = lcp pu pv := by
    rcases lcp_split pu pv with hcase | hcase | ⟨a, b, pu2, pv2, hab, hpu2, hpv2⟩
    · refine ⟨reprIdx t pu, by omega, by omega, ?_⟩
      rw [(repr_firstOcc_top t pu hu).2.1]
      exact hcase
    · refine ⟨reprIdx t pv, by omega, by omega, ?_⟩
      rw [(repr_firstOcc_top t pv hv).2.1]
      exact hcase
    · rcases Nat.lt_or_ge a b with hab2 | hab2
      · have hO := occBetween t (lcp pu pv) a b pu2 pv2 (by rw [← hpu2]; exact hu)
          (by rw [← hpv2]; exact hv) hab2
        rcases hO with ⟨m, hm1, hm2, hm3⟩
        rw [← hpu2] at hm1
        rw [← hpv2] at hm2
        exact ⟨m, by omega, by omega, hm3⟩
      · have hba : b < a := by omega
        have hO := occBetween t (lcp pu pv) b a pv2 pu2 (by rw [← hpv2]; exact hv)
          (by rw [← hpu2]; exact hu) hba
        rcases hO with ⟨m, hm1, hm2, hm3⟩
        rw [← hpv2] at hm1
        rw [← hpu2] at hm2
        exact ⟨m, by omega, by omega, hm3⟩
  rcases hexm with ⟨m, hm1, hm2, hPm⟩
  have hmlen : m < (tourE t 0 []).length := by omega
  have hLk := (entry_spec t k hklen default).2.1
  have hLm := (entry_spec t m hmlen default).2.1
  have hAkm := hk3 m (by omega) (by omega)
  have hLle : (levelL t).getD k 0 ≤ (levelL t).getD m 0 := by
    simp only [] at hAkm
    exact_mod_cast hAkm
  rw [hLk, hLm, hPm] at hLle
  have hgelen : (lcp pu pv).length ≤ ((pathsL t).getD k []).length := hpfxk.length_le
  have hPk : (pathsL t).getD k [] = lcp pu pv :=
    (hpfxk.eq_of_length (by omega)).symm
  have hE := (entry_spec t k hklen default).2.2
  have hquery : lcaQuery t pu pv = (euler t).getD k default := by
    simp only [lcaQuery]
    by_cases hcase : reprIdx t pu ≤ reprIdx t pv
    · rw [if_pos hcase, hkdef, min_eq_left hcase, max_eq_right hcase]
    · have hcase' : reprIdx t pv ≤ reprIdx t pu := by omega
      rw [if_neg hcase, hkdef, min_eq_right hcase', max_eq_left hcase']
  rw [hquery, hE, hPk]

end Tree

/-- The test tree of the repository's LCA driver: `a(b(c, d, e), f(g(h), i))`.
Nodes are addressed by child-index paths; e.g. `b = [0]`, `h = [1, 0, 0]`. -/
def exT : Tree Char :=
  .node 'a' [.node 'b' [.node 'c' [], .node 'd' [], .node 'e' []],
    .node 'f' [.node 'g' [.node 'h' []], .node 'i' []]]

/-- C2: for every rooted tree and every two of its nodes `pu`, `pv`,
`lca::query` returns the id of their deepest common ancestor: the node at the
longest common prefix of the two addresses, which is a common ancestor
(prefix of both addresses) of maximal depth.  In particular
`query(u, u) = id(u)` (the common prefix of `pu` with itself is `pu`), and on
the driver's tree `a(b(c, d, e), f(g(h), i))`: `LCA(a, a) = a`,
`LCA(b, f) = a`, `LCA(c, e) = b`, `LCA(h, i) = f`. -/
theorem claim_C2_lca_correct (V : Type) (inst : Inhabited V) (t : Tree V)
    (pu pv : List ℕ) (hu : Tree.validPath t pu = true) (hv : Tree.validPath t pv = true) :
    (Tree.lcaQuery t pu pv = Tree.idOf (Tree.nodeAt t (Tree.lcp pu pv)) ∧
      Tree.lcp pu pv <+: pu ∧ Tree.lcp pu pv <+: pv ∧
      (∀ r', r' <+: pu → r' <+: pv → r'.length ≤ (Tree.lcp pu pv).length) ∧
      Tree.lcp pu pu = pu) ∧
    Tree.lcaQuery exT [] [] = 'a' ∧
    Tree.lcaQuery exT [0] [1] = 'a' ∧
    Tree.lcaQuery exT [0, 0] [0, 2] = 'b' ∧
    Tree.lcaQuery exT [1, 0, 0] [1, 1] = 'f' := by
  refine ⟨⟨Tree.lcaQuery_eq_lcp t pu pv hu hv, (Tree.lcp_pfx pu pv).1,
    (Tree.lcp_pfx pu pv).2, ?_, Tree.lcp_self pu⟩, by decide, by decide, by decide, by decide⟩
  intro r' h1 h2
  exact (Tree.pfx_lcp r' pu pv h1 h2).length_le

/-- Witness for `claim_C2_lca_correct` on the driver's tree at the nodes
`c = [0, 0]` and `e = [0, 2]`. -/
theorem claim_C2_lca_correct_witness :
    (Tree.lcaQuery exT [0, 0] [0, 2] =
        Tree.idOf (Tree.nodeAt exT (Tree.lcp [0, 0] [0, 2])) ∧
      Tree.lcp [0, 0] [0, 2] <+: [0, 0] ∧ Tree.lcp [0, 0] [0, 2] <+: [0, 2] ∧
      (∀ r', r' <+: [0, 0] → r' <+: [0, 2] →
        r'.length ≤ (Tree.lcp [0, 0] [0, 2]).length) ∧
      Tree.lcp [0, 0] [0, 0] = [0, 0]) ∧
    Tree.lcaQuery exT [] [] = 'a' ∧
    Tree.lcaQuery exT [0] [1] = 'a' ∧
    Tree.lcaQuery exT [0, 0] [0, 2] = 'b' ∧
    Tree.lcaQuery exT [1, 0, 0] [1, 1] = 'f' :=
  claim_C2_lca_correct Char ⟨'a'⟩ exT [0, 0] [0, 2] (by decide) (by decide)

/-- C6: after LCA preprocessing of a tree with `n` nodes, the Euler array and
the level array both have length `2n - 1`; the level entry at each index is
the depth of the node the Euler entry at that index came from (root depth 0,
depth of a node = length of its address); consecutive level entries differ by
exactly one; and the stored representative of every node `q` is an index at
which the Euler array holds that node's id (so every node appears in the
Euler array). -/
theorem claim_C6_euler_level_invariants (V : Type) (t : Tree V) (dflt : V)
    (q : List ℕ) (hq : Tree.validPath t q = true) :
    (Tree.euler t).length = 2 * Tree.size t - 1 ∧
    (Tree.levelL t).length = 2 * Tree.size t - 1 ∧
    (Tree.reprIdx t q < (Tree.euler t).length ∧
      (Tree.euler t).getD (Tree.reprIdx t q) dflt = Tree.idOf (Tree.nodeAt t q) ∧
      (Tree.levelL t).getD (Tree.reprIdx t q) 0 = q.length) ∧
    (∀ k, k < (Tree.euler t).length →
      (Tree.levelL t).getD k 0 = ((Tree.pathsL t).getD k []).length ∧
      (Tree.euler t).getD k dflt = Tree.idOf (Tree.nodeAt t ((Tree.pathsL t).getD k []))) ∧
    ∀ k, k + 1 < (Tree.levelL t).length →
      (Tree.levelL t).getD (k + 1) 0 = (Tree.levelL t).getD k 0 + 1 ∨
      (Tree.levelL t).getD k 0 = (Tree.levelL t).getD (k + 1) 0 + 1 := by
  have htlen : ∀ k, k < (Tree.euler t).length → k < (Tree.tourE t 0 []).length := by
    intro k hk
    rw [Tree.euler_length] at hk
    rw [Tree.tourE_length]
    exact hk
  refine ⟨Tree.euler_length t, Tree.levelL_length t, ?_, ?_, ?_⟩
  · have hocc := Tree.repr_firstOcc_top t q hq
    have hrl : Tree.reprIdx t q < (Tree.euler t).length := by
      rw [Tree.euler_length, ← Tree.tourE_length t 0 []]
      exact hocc.1
    have hspec := Tree.entry_spec t (Tree.reprIdx t q) hocc.1 dflt
    refine ⟨hrl, ?_, ?_⟩
    · rw [hspec.2.2, hocc.2.1]
    · rw [hspec.2.1, hocc.2.1]
  · intro k hk
    have hspec := Tree.entry_spec t k (htlen k hk) dflt
    exact ⟨hspec.2.1, hspec.2.2⟩
  · intro k hk
    have hch := (Tree.tourE_chain t 0 []).1
    rw [List.chain'_iff_get] at hch
    have hlen : (Tree.levelL t) = (Tree.tourE t 0 []).map fun e => e.2.1 := rfl
    have hklen : k < ((Tree.tourE t 0 []).map fun e => e.2.1).length - 1 := by
      rw [← hlen]
      omega
    have := hch k hklen
    rcases this with h | h
    · left
      rw [hlen]
      have h1 : k < ((Tree.tourE t 0 []).map fun e => e.2.1).length := by omega
      have h2 : k + 1 < ((Tree.tourE t 0 []).map fun e => e.2.1).length := by omega
      rw [List.getD_eq_getElem _ _ h2, List.getD_eq_getElem _ _ h1]
      simpa using h
    · right
      rw [hlen]
      have h1 : k < ((Tree.tourE t 0 []).map fun e => e.2.1).length := by omega
      have h2 : k + 1 < ((Tree.tourE t 0 []).map fun e => e.2.1).length := by omega
      rw [List.getD_eq_getElem _ _ h2, List.getD_eq_getElem _ _ h1]
      simpa using h

/-- Witness for `claim_C6_euler_level_invariants` on the driver's tree at the
node `g = [1, 0]`. -/
theorem claim_C6_euler_level_invariants_witness :
    (Tree.euler exT).length = 2 * Tree.size exT - 1 ∧
    (Tree.levelL exT).length = 2 * Tree.size exT - 1 ∧
    (Tree.reprIdx exT [1, 0] < (Tree.euler exT).length ∧
      (Tree.euler exT).getD (Tree.reprIdx exT [1, 0]) 'a' =
        Tree.idOf (Tree.nodeAt exT [1, 0]) ∧
      (Tree.levelL exT).getD (Tree.reprIdx exT [1, 0]) 0 = ([1, 0] : List ℕ).length) ∧
    (∀ k, k < (Tree.euler exT).length →
      (Tree.levelL exT).getD k 0 = ((Tree.pathsL exT).getD k []).length ∧
      (Tree.euler exT).getD k 'a' =
        Tree.idOf (Tree.nodeAt exT ((Tree.pathsL exT).getD k []))) ∧
    ∀ k, k + 1 < (Tree.levelL exT).length →
      (Tree.levelL exT).getD (k + 1) 0 = (Tree.levelL exT).getD k 0 + 1 ∨
      (Tree.levelL exT).getD k 0 = (Tree.levelL exT).getD (k + 1) 0 + 1 :=
  claim_C6_euler_level_invariants Char exT 'a' [1, 0] (by decide)

/-- C10: the representative stored on each node is exactly the index of the
node's first occurrence in the Euler tour — the tour entry at `reprIdx` is
addressed by the node's path, and no earlier entry is. -/
theorem claim_C10_repr_first_occurrence (V : Type) (t : Tree V) (q : List ℕ)
    (hq : Tree.validPath t q = true) :
    (Tree.pathsL t).getD (Tree.reprIdx t q) [] = q ∧
    ∀ k, k < Tree.reprIdx t q → (Tree.pathsL t).getD k [] ≠ q :=
  ⟨(Tree.repr_firstOcc_top t q hq).2.1, (Tree.repr_firstOcc_top t q hq).2.2⟩

/-- Witness for `claim_C10_repr_first_occurrence` on the driver's tree at the
node `f = [1]` (whose id also occurs later in the tour). -/
theorem claim_C10_repr_first_occurrence_witness :
    (Tree.pathsL exT).getD (Tree.reprIdx exT [1]) [] = [1] ∧
    ∀ k, k < Tree.reprIdx exT [1] → (Tree.pathsL exT).getD k [] ≠ [1] :=
  claim_C10_repr_first_occurrence Char exT [1] (by decide)

/-! ## opt_rmq (src/opt_rmq.hpp): the Cartesian tree

`cartesian_tree(b, e)` builds the Cartesian tree with the stack algorithm.
Tree nodes carry `(value, input offset)` pairs.  The mutable
`rightmost_path` stack of node pointers is modelled as a list of spine
entries, deepest first; an entry records a node's value, offset, and the
children it acquired at creation (`[]` for a fresh leaf, or the single
subtree assembled from the nodes popped off below it).  The node addressed
by an entry additionally owns, as its last child, the subtree formed by the
entries below it on the spine; `collapseOnto` materializes that: the source's
pointer graph at any point of the loop is `collapseOnto` of the bottom entry
onto the rest.  The source's test for "has a right child"
(`children.back().id().second > id().second`) is exactly "some entries were
popped from below this entry", since recorded children all have smaller
offsets and only the spine supplies larger-offset children. -/

structure SpEnt where
  val : ℤ
  idx : ℕ
  kids : List (Tree (ℤ × ℕ))

def entryTree (e : SpEnt) : Tree (ℤ × ℕ) := .node (e.val, e.idx) e.kids

def collapseOnto : Tree (ℤ × ℕ) → List SpEnt → Tree (ℤ × ℕ)
  | T, [] => T
  | T, e :: es => collapseOnto (.node (e.val, e.idx) (e.kids ++ [T])) es

/-- One iteration of the construction loop at position `c` with value `x`:
pop the strictly larger entries, wrap them into a subtree, and push a new
entry that owns that subtree as its only (left) child. -/
def insertStep (s : List SpEnt) (x : ℤ) (c : ℕ) : List SpEnt :=
  let popped := s.takeWhile fun e => decide (x < e.val)
  let rest := s.dropWhile fun e => decide (x < e.val)
  let kids : List (Tree (ℤ × ℕ)) :=
    match popped with
    | [] => []
    | e :: es => [collapseOnto (entryTree e) es]
  ⟨x, c, kids⟩ :: rest

/-- The spine after the whole loop (`c = 1 .. n-1`). -/
def spineRun (A : ℕ → ℤ) (n : ℕ) : List SpEnt :=
  (List.range (n - 1)).foldl (fun s j => insertStep s (A (j + 1)) (j + 1)) [⟨A 0, 0, []⟩]

/-- `opt_rmq::cartesian_tree`. -/
def cartesianTree (A : ℕ → ℤ) (n : ℕ) : Tree (ℤ × ℕ) :=
  match spineRun A n with
  | [] => .node (A 0, 0) []
  | e :: es => collapseOnto (entryTree e) es

def rootIdx : Tree (ℤ × ℕ) → ℕ
  | .node (_, i) _ => i

def rootVal : Tree (ℤ × ℕ) → ℤ
  | .node (x, _) _ => x

/-- Inorder traversal of a Cartesian tree: an n-ary node's children are left
or right children according to their stored offsets (this is how the source
distinguishes the sides, cf. the `id().second` comparison above); the node's
own offset sits between the two groups. -/
def inorder : Tree (ℤ × ℕ) → List ℕ
  | .node (_, i) cs =>
    ((cs.filter fun c => decide (rootIdx c < i)).attach.map fun c => inorder c.1).flatten
      ++ i :: ((cs.filter fun c => decide (i < rootIdx c)).attach.map fun c =>
        inorder c.1).flatten
decreasing_by
  all_goals (
    have h1 := List.mem_of_mem_filter c.2
    have h2 := List.sizeOf_lt_of_mem h1
    simp only [Tree.node.sizeOf_spec]
    omega)

theorem inorder_eq (x : ℤ) (i : ℕ) (cs : List (Tree (ℤ × ℕ))) :
    inorder (.node (x, i) cs) =
      ((cs.filter fun c => decide (rootIdx c < i)).map inorder).flatten
        ++ i :: ((cs.filter fun c => decide (i < rootIdx c)).map inorder).flatten := by
  rw [inorder]
  congr 1
  · congr 1
    exact List.attach_map_coe _ _
  · congr 1
    congr 1
    exact List.attach_map_coe _ _

/-! ### opt_rmq: index-to-node map and query

`fill_idx_to_node` walks the finished tree and stores, for each input
offset, a pointer to the node carrying that offset.  Offsets are unique
(inorder is `0..n-1`), so the map sends an offset to the address of the node
storing it; `findPath` performs that lookup. -/

mutual

def findPath : Tree (ℤ × ℕ) → ℕ → Option (List ℕ)
  | .node (_, i) cs, j => if i = j then some [] else findPathL cs 0 j

def findPathL : List (Tree (ℤ × ℕ)) → ℕ → ℕ → Option (List ℕ)
  | [], _, _ => none
  | c :: rest, a, j =>
    match findPath c j with
    | some p => some (a :: p)
    | none => findPathL rest (a + 1) j

end

/-- `opt_rmq::query`: map the two offsets (the upper one made inclusive) to
their tree nodes, run the LCA query, and return the offset stored in the
answer's id. -/
def optQuery (A : ℕ → ℤ) (n u v : ℕ) : ℕ :=
  let t := cartesianTree A n
  let pu := (findPath t u).getD []
  let pv := (findPath t (v - 1)).getD []
  (Tree.lcaQuery t pu pv).2

/-! ### Invariants of the Cartesian tree construction -/

/-- Shape invariant of nodes built by the stack algorithm: at most two
children, and with two children the first is the left one and the second the
right one. -/
def SideInv (i : ℕ) (cs : List (Tree (ℤ × ℕ))) : Prop :=
  cs = [] ∨ (∃ c, cs = [c] ∧ rootIdx c ≠ i) ∨
    ∃ c1 c2, cs = [c1, c2] ∧ rootIdx c1 < i ∧ i < rootIdx c2

/-- Well-formedness of a (sub)tree built by `cartesian_tree` over `A`: ids
are consistent (`value = A offset`), each node's value bounds all values in
its children's subtrees (min-heap property), and shapes respect `SideInv`. -/
inductive CartGood (A : ℕ → ℤ) : Tree (ℤ × ℕ) → Prop where
  | node : ∀ (x : ℤ) (i : ℕ) (cs : List (Tree (ℤ × ℕ))),
      x = A i →
      (∀ c ∈ cs, CartGood A c) →
      (∀ c ∈ cs, ∀ j ∈ inorder c, x ≤ A j) →
      SideInv i cs →
      CartGood A (.node (x, i) cs)

theorem CartGood.inv {A : ℕ → ℤ} {x : ℤ} {i : ℕ} {cs : List (Tree (ℤ × ℕ))}
    (h : CartGood A (.node (x, i) cs)) :
    x = A i ∧ (∀ c ∈ cs, CartGood A c) ∧
      (∀ c ∈ cs, ∀ j ∈ inorder c, x ≤ A j) ∧ SideInv i cs := by
  cases h with
  | node _ _ _ hx hcs hheap hside => exact ⟨hx, hcs, hheap, hside⟩

theorem rootIdx_mem_inorder (t : Tree (ℤ × ℕ)) : rootIdx t ∈ inorder t := by
  cases t with
  | node v cs =>
    cases v with
    | mk x i =>
      rw [inorder_eq]
      simp [rootIdx]

theorem CartGood.min_le {A : ℕ → ℤ} {t : Tree (ℤ × ℕ)} (h : CartGood A t) :
    ∀ j ∈ inorder t, rootVal t ≤ A j := by
  cases t with
  | node v cs =>
    cases v with
    | mk x i =>
      intro j hj
      rcases h.inv with ⟨hx, _, hheap, _⟩
      rw [inorder_eq] at hj
      simp only [List.mem_append, List.mem_cons, List.mem_flatten, List.mem_map] at hj
      rcases hj with ⟨l, ⟨c, hc, hcl⟩, hjl⟩ | hj | ⟨l, ⟨c, hc, hcl⟩, hjl⟩
      · exact hheap c (List.mem_of_mem_filter hc) j (hcl ▸ hjl)
      · rw [show rootVal (Tree.node (x, i) cs) = x from rfl, hx, hj]
      · exact hheap c (List.mem_of_mem_filter hc) j (hcl ▸ hjl)

/-- Ordering relation along the spine (head is the deepest node): going up,
values do not increase and offsets strictly decrease. -/
def entChain (e1 e2 : SpEnt) : Prop := e2.val ≤ e1.val ∧ e2.idx < e1.idx

/-- The kids recorded on each spine entry: at most one, a left child. -/
def KidsShape (e : SpEnt) : Prop :=
  e.kids = [] ∨ ∃ k, e.kids = [k] ∧ rootIdx k < e.idx

/-- Collapsing a subtree onto the entries below it preserves well-formedness,
concatenates the inorders, and roots the result at one of the entries. -/
theorem collapseOnto_spec (A : ℕ → ℤ) :
    ∀ (es : List SpEnt) (T : Tree (ℤ × ℕ)),
      CartGood A T →
      (∀ e ∈ es, CartGood A (entryTree e)) →
      (∀ e ∈ es, KidsShape e) →
      List.Chain' entChain (⟨rootVal T, rootIdx T, []⟩ :: es) →
      CartGood A (collapseOnto T es) ∧
      inorder (collapseOnto T es) =
        (es.reverse.map fun e => inorder (entryTree e)).flatten ++ inorder T ∧
      (rootIdx (collapseOnto T es) = rootIdx T ∨
        ∃ e ∈ es, rootIdx (collapseOnto T es) = e.idx) := by
  intro es
  induction es with
  | nil =>
    intro T hT _ _ _
    exact ⟨hT, by simp [collapseOnto], Or.inl rfl⟩
  | cons e es ih =>
    intro T hT hgood hkids hchain
    have hlink : entChain ⟨rootVal T, rootIdx T, []⟩ e := by
      rw [List.chain'_cons'] at hchain
      have := hchain.1 e
      simp at this
      exact this
    have hvalLe : e.val ≤ rootVal T := hlink.1
    have hidxLt : e.idx < rootIdx T := hlink.2
    have hchain2 : List.Chain' entChain (e :: es) := by
      rw [List.chain'_cons'] at hchain
      exact hchain.2
    rcases (hgood e (List.mem_cons_self e es)).inv with ⟨hex, hekids, heheap, _⟩
    have hT2good : CartGood A (Tree.node (e.val, e.idx) (e.kids ++ [T])) := by
      refine CartGood.node e.val e.idx (e.kids ++ [T]) hex ?_ ?_ ?_
      · intro c hc
        rcases List.mem_append.mp hc with hc | hc
        · exact hekids c hc
        · rw [List.mem_singleton.mp hc]
          exact hT
      · intro c hc j hj
        rcases List.mem_append.mp hc with hc | hc
        · exact heheap c hc j hj
        · rw [List.mem_singleton.mp hc] at hj
          exact le_trans hvalLe (hT.min_le j hj)
      · rcases hkids e (List.mem_cons_self e es) with hk | ⟨k, hk, hkidx⟩
        · rw [hk]
          exact Or.inr (Or.inl ⟨T, rfl, by omega⟩)
        · rw [hk]
          exact Or.inr (Or.inr ⟨k, T, rfl, hkidx, hidxLt⟩)
    have hT2inorder : inorder (Tree.node (e.val, e.idx) (e.kids ++ [T])) =
        inorder (entryTree e) ++ inorder T := by
      rcases hkids e (List.mem_cons_self e es) with hk | ⟨k, hk, hkidx⟩
      · rw [hk, entryTree, hk]
        rw [inorder_eq, inorder_eq]
        have hfl : List.filter (fun c => decide (rootIdx c < e.idx)) [T] = [] := by
          simp only [List.filter_cons, List.filter_nil, decide_eq_true_eq]
          rw [if_neg (by omega)]
        have hfr : List.filter (fun c => decide (e.idx < rootIdx c)) [T] = [T] := by
          simp only [List.filter_cons, List.filter_nil, decide_eq_true_eq]
          rw [if_pos hidxLt]
        simp [hfl, hfr]
      · rw [hk, entryTree, hk]
        rw [inorder_eq, inorder_eq]
        have hfl : List.filter (fun c => decide (rootIdx c < e.idx)) [k, T] = [k] := by
          simp only [List.filter_cons, List.filter_nil, decide_eq_true_eq]
          rw [if_pos hkidx, if_neg (by omega)]
        have hfr : List.filter (fun c => decide (e.idx < rootIdx c)) [k, T] = [T] := by
          simp only [List.filter_cons, List.filter_nil, decide_eq_true_eq]
          rw [if_neg (by omega), if_pos hidxLt]
        have hfl2 : List.filter (fun c => decide (rootIdx c < e.idx)) [k] = [k] := by
          simp only [List.filter_cons, List.filter_nil, decide_eq_true_eq]
          rw [if_pos hkidx]
        have hfr2 : List.filter (fun c => decide (e.idx < rootIdx c)) [k] = [] := by
          simp only [List.filter_cons, List.filter_nil, decide_eq_true_eq]
          rw [if_neg (by omega)]
        simp [hfl, hfr, hfl2, hfr2]
    have hchain3 : List.Chain' entChain
        (⟨rootVal (Tree.node (e.val, e.idx) (e.kids ++ [T])),
          rootIdx (Tree.node (e.val, e.idx) (e.kids ++ [T])), []⟩ :: es) := by
      rw [List.chain'_cons'] at hchain2 ⊢
      refine ⟨?_, hchain2.2⟩
      intro y hy
      exact hchain2.1 y hy
    have hrec := ih (Tree.node (e.val, e.idx) (e.kids ++ [T])) hT2good
      (fun e he => hgood e (List.mem_cons_of_mem _ he))
      (fun e he => hkids e (List.mem_cons_of_mem _ he)) hchain3
    refine ⟨hrec.1, ?_, ?_⟩
    · rw [show collapseOnto T (e :: es) =
        collapseOnto (Tree.node (e.val, e.idx) (e.kids ++ [T])) es from rfl]
      rw [hrec.2.1, hT2inorder]
      simp
    · rw [show collapseOnto T (e :: es) =
        collapseOnto (Tree.node (e.val, e.idx) (e.kids ++ [T])) es from rfl]
      rcases hrec.2.2 with hroot | ⟨e', he', hroot⟩
      · exact Or.inr ⟨e, List.mem_cons_self e es, hroot⟩
      · exact Or.inr ⟨e', List.mem_cons_of_mem _ he', hroot⟩

/-- The loop invariant of `cartesian_tree`: after processing offsets
`0 .. c`, the stack is a non-empty spine with decreasing values and offsets
going down, all offsets processed so far appear exactly once across the
entries' subtrees in left-to-right order, and every entry's subtree is
well-formed. -/
def SpInv (A : ℕ → ℤ) (c : ℕ) (s : List SpEnt) : Prop :=
  s ≠ [] ∧ List.Chain' entChain s ∧ (∀ e ∈ s, e.idx ≤ c) ∧
    ((s.reverse.map fun e => inorder (entryTree e)).flatten = List.range (c + 1)) ∧
    (∀ e ∈ s, CartGood A (entryTree e)) ∧ (∀ e ∈ s, KidsShape e)

theorem insertStep_eq_nil (s : List SpEnt) (x : ℤ) (c : ℕ)
    (h : s.takeWhile (fun e => decide (x < e.val)) = []) :
    insertStep s x c = ⟨x, c, []⟩ :: s.dropWhile (fun e => decide (x < e.val)) := by
  simp only [insertStep, h]

theorem insertStep_eq_cons (s : List SpEnt) (x : ℤ) (c : ℕ) (e0 : SpEnt) (es0 : List SpEnt)
    (h : s.takeWhile (fun e => decide (x < e.val)) = e0 :: es0) :
    insertStep s x c = ⟨x, c, [collapseOnto (entryTree e0) es0]⟩ ::
      s.dropWhile (fun e => decide (x < e.val)) := by
  simp only [insertStep, h]

theorem inorder_entryTree_nil (x : ℤ) (c : ℕ) :
    inorder (entryTree ⟨x, c, []⟩) = [c] := by
  rw [entryTree, inorder_eq]
  simp

theorem inorder_entryTree_one (x : ℤ) (c : ℕ) (T : Tree (ℤ × ℕ)) (h : rootIdx T < c) :
    inorder (entryTree ⟨x, c, [T]⟩) = inorder T ++ [c] := by
  rw [entryTree, inorder_eq]
  have hfl : List.filter (fun c2 => decide (rootIdx c2 < c)) [T] = [T] := by
    simp only [List.filter_cons, List.filter_nil, decide_eq_true_eq]
    rw [if_pos h]
  have hfr : List.filter (fun c2 => decide (c < rootIdx c2)) [T] = [] := by
    simp only [List.filter_cons, List.filter_nil, decide_eq_true_eq]
    rw [if_neg (by omega)]
  simp [hfl, hfr]

theorem insertStep_inv (A : ℕ → ℤ) (c : ℕ) (s : List SpEnt) (h : SpInv A c s) :
    SpInv A (c + 1) (insertStep s (A (c + 1)) (c + 1)) := by
  obtain ⟨hne, hch, hidx, hconcat, hgood, hkids⟩ := h
  set x := A (c + 1) with hx
  set p : SpEnt → Bool := fun e => decide (x < e.val) with hp
  have hsplit : s.takeWhile p ++ s.dropWhile p = s := List.takeWhile_append_dropWhile p s
  have hmemRest : ∀ e ∈ s.dropWhile p, e ∈ s := by
    intro e he
    rw [← hsplit]
    exact List.mem_append_right _ he
  have hchRest : List.Chain' entChain (s.dropWhile p) := hch.suffix (List.dropWhile_suffix p)
  have hrestHead : ∀ h0 ∈ (s.dropWhile p).head?, h0.val ≤ x ∧ h0.idx ≤ c := by
    intro h0 hh0
    have hnp := List.head?_dropWhile_not p s
    rw [Option.mem_def] at hh0
    rw [hh0] at hnp
    have hph0 : p h0 = false := hnp
    rw [hp] at hph0
    simp only [decide_eq_false_iff_not, not_lt] at hph0
    exact ⟨hph0, hidx h0 (hmemRest h0 (List.mem_of_mem_head? hh0))⟩
  rcases hpc : s.takeWhile p with _ | ⟨e0, es0⟩
  · -- nothing popped: the new value is at least the top of the stack
    rw [insertStep_eq_nil s x (c + 1) hpc]
    refine ⟨List.cons_ne_nil _ _, ?_, ?_, ?_, ?_, ?_⟩
    · rw [List.chain'_cons']
      refine ⟨?_, hchRest⟩
      intro h0 hh0
      rcases hrestHead h0 hh0 with ⟨h1, h2⟩
      exact ⟨h1, Nat.lt_succ_of_le h2⟩
    · intro e he
      rcases List.mem_cons.mp he with he | he
      · rw [he]
      · exact le_trans (hidx e (hmemRest e he)) (Nat.le_succ c)
    · have hrest_eq : s.dropWhile p = s := by
        have h2 := hsplit
        rw [hpc, List.nil_append] at h2
        exact h2
      rw [List.reverse_cons, List.map_append, List.flatten_append, hrest_eq, hconcat]
      simp only [List.map_cons, List.map_nil, List.flatten_cons, List.flatten_nil,
        List.append_nil, inorder_entryTree_nil]
      exact (List.range_succ (c + 1)).symm
    · intro e he
      rcases List.mem_cons.mp he with he | he
      · rw [he]
        refine CartGood.node x (c + 1) [] hx ?_ ?_ (Or.inl rfl)
        · intro c hc
          cases hc
        · intro c hc
          cases hc
      · exact hgood e (hmemRest e he)
    · intro e he
      rcases List.mem_cons.mp he with he | he
      · rw [he]
        exact Or.inl rfl
      · exact hkids e (hmemRest e he)
  · -- popped entries collapse into the left child of the new entry
    have hmemPop : ∀ e ∈ e0 :: es0, e ∈ s := by
      intro e he
      rw [← hsplit, hpc]
      exact List.mem_append_left _ he
    have hpopLt : ∀ e ∈ e0 :: es0, x < e.val := by
      intro e he
      have := List.mem_takeWhile_imp (hpc ▸ he)
      rwa [hp, decide_eq_true_eq] at this
    have hchainPop : List.Chain' entChain (e0 :: es0) :=
      hch.prefix (hpc ▸ List.takeWhile_prefix p)
    have hchainMk : List.Chain' entChain
        (⟨rootVal (entryTree e0), rootIdx (entryTree e0), []⟩ :: es0) := by
      rw [List.chain'_cons'] at hchainPop ⊢
      exact ⟨fun y hy => hchainPop.1 y hy, hchainPop.2⟩
    have hspec := collapseOnto_spec A es0 (entryTree e0)
      (hgood e0 (hmemPop e0 (List.mem_cons_self e0 es0)))
      (fun e he => hgood e (hmemPop e (List.mem_cons_of_mem _ he)))
      (fun e he => hkids e (hmemPop e (List.mem_cons_of_mem _ he)))
      hchainMk
    obtain ⟨hTgood, hTinorder, hTroot⟩ := hspec
    have hTidx : rootIdx (collapseOnto (entryTree e0) es0) ≤ c := by
      rcases hTroot with hr | ⟨e', he', hr⟩
      · rw [hr]
        exact hidx e0 (hmemPop e0 (List.mem_cons_self e0 es0))
      · rw [hr]
        exact hidx e' (hmemPop e' (List.mem_cons_of_mem _ he'))
    have hTmin : ∀ j ∈ inorder (collapseOnto (entryTree e0) es0), x < A j := by
      intro j hj
      rw [hTinorder] at hj
      rcases List.mem_append.mp hj with hj | hj
      · rw [List.mem_flatten] at hj
        obtain ⟨l, hl, hjl⟩ := hj
        rw [List.mem_map] at hl
        obtain ⟨e', he', hle⟩ := hl
        rw [List.mem_reverse] at he'
        have hgood' := hgood e' (hmemPop e' (List.mem_cons_of_mem _ he'))
        have := hgood'.min_le j (hle ▸ hjl)
        have hlt := hpopLt e' (List.mem_cons_of_mem _ he')
        calc x < e'.val := hlt
          _ ≤ A j := this
      · have hgood' := hgood e0 (hmemPop e0 (List.mem_cons_self e0 es0))
        have := hgood'.min_le j hj
        have hlt := hpopLt e0 (List.mem_cons_self e0 es0)
        calc x < e0.val := hlt
          _ ≤ A j := this
    rw [insertStep_eq_cons s x (c + 1) e0 es0 hpc]
    refine ⟨List.cons_ne_nil _ _, ?_, ?_, ?_, ?_, ?_⟩
    · rw [List.chain'_cons']
      refine ⟨?_, hchRest⟩
      intro h0 hh0
      rcases hrestHead h0 hh0 with ⟨h1, h2⟩
      exact ⟨h1, Nat.lt_succ_of_le h2⟩
    · intro e he
      rcases List.mem_cons.mp he with he | he
      · rw [he]
      · exact le_trans (hidx e (hmemRest e he)) (Nat.le_succ c)
    · have hsrev : s.reverse = (s.dropWhile p).reverse ++ (es0.reverse ++ [e0]) := by
        conv_lhs => rw [← hsplit, hpc]
        rw [List.reverse_append, List.reverse_cons]
      rw [hsrev, List.map_append, List.flatten_append, List.map_append,
        List.flatten_append] at hconcat
      simp only [List.map_cons, List.map_nil, List.flatten_cons, List.flatten_nil,
        List.append_nil] at hconcat
      rw [List.reverse_cons, List.map_append, List.flatten_append]
      simp only [List.map_cons, List.map_nil, List.flatten_cons, List.flatten_nil,
        List.append_nil]
      rw [inorder_entryTree_one x (c + 1) _ (by omega), hTinorder, List.range_succ,
        ← hconcat]
      simp
    · intro e he
      rcases List.mem_cons.mp he with he | he
      · rw [he]
        refine CartGood.node x (c + 1) [collapseOnto (entryTree e0) es0] hx ?_ ?_ ?_
        · intro c2 hc2
          rw [List.mem_singleton.mp hc2]
          exact hTgood
        · intro c2 hc2 j hj
          rw [List.mem_singleton.mp hc2] at hj
          exact le_of_lt (hTmin j hj)
        · exact Or.inr (Or.inl ⟨_, rfl, by
            have h3 : rootIdx (collapseOnto (entryTree e0) es0) ≤ c := hTidx
            omega⟩)
      · exact hgood e (hmemRest e he)
    · intro e he
      rcases List.mem_cons.mp he with he | he
      · rw [he]
        exact Or.inr ⟨collapseOnto (entryTree e0) es0, rfl, Nat.lt_succ_of_le hTidx⟩
      · exact hkids e (hmemRest e he)

theorem spineAux_inv (A : ℕ → ℤ) (m : ℕ) :
    SpInv A m ((List.range m).foldl
      (fun s j => insertStep s (A (j + 1)) (j + 1)) [⟨A 0, 0, []⟩]) := by
  induction m with
  | zero =>
    refine ⟨List.cons_ne_nil _ _, List.chain'_singleton _, ?_, ?_, ?_, ?_⟩
    · intro e he
      rw [List.mem_singleton.mp he]
    · simp only [List.range_zero, List.foldl_nil, List.reverse_cons, List.reverse_nil,
        List.nil_append, List.map_cons, List.map_nil, List.flatten_cons, List.flatten_nil,
        List.append_nil, inorder_entryTree_nil]
      rfl
    · intro e he
      rw [List.mem_singleton.mp he]
      refine CartGood.node (A 0) 0 [] rfl ?_ ?_ (Or.inl rfl)
      · intro c hc
        cases hc
      · intro c hc
        cases hc
    · intro e he
      rw [List.mem_singleton.mp he]
      exact Or.inl rfl
  | succ m ih =>
    rw [List.range_succ, List.foldl_append]
    simp only [List.foldl_cons, List.foldl_nil]
    exact insertStep_inv A m _ ih

/-- `cartesian_tree` builds a well-formed tree whose inorder traversal is
exactly the input offsets `0 .. n-1` in order. -/
theorem cartesianTree_spec (A : ℕ → ℤ) (n : ℕ) (h : 1 ≤ n) :
    CartGood A (cartesianTree A n) ∧ inorder (cartesianTree A n) = List.range n := by
  have hinv := spineAux_inv A (n - 1)
  obtain ⟨hne, hch, _, hconcat, hgood, hkids⟩ := hinv
  rcases hsEq : (List.range (n - 1)).foldl
      (fun s j => insertStep s (A (j + 1)) (j + 1)) [⟨A 0, 0, []⟩] with _ | ⟨e, es⟩
  · exact absurd hsEq hne
  · rw [hsEq] at hch hconcat hgood hkids
    have hct : cartesianTree A n = collapseOnto (entryTree e) es := by
      rw [cartesianTree, spineRun, hsEq]
    have hchainMk : List.Chain' entChain
        (⟨rootVal (entryTree e), rootIdx (entryTree e), []⟩ :: es) := by
      rw [List.chain'_cons'] at hch ⊢
      exact ⟨fun y hy => hch.1 y hy, hch.2⟩
    have hspec := collapseOnto_spec A es (entryTree e)
      (hgood e (List.mem_cons_self e es))
      (fun e' he' => hgood e' (List.mem_cons_of_mem _ he'))
      (fun e' he' => hkids e' (List.mem_cons_of_mem _ he'))
      hchainMk
    refine ⟨hct ▸ hspec.1, ?_⟩
    rw [hct, hspec.2.1]
    rw [List.reverse_cons, List.map_append, List.flatten_append] at hconcat
    simp only [List.map_cons, List.map_nil, List.flatten_cons, List.flatten_nil,
      List.append_nil] at hconcat
    rw [hconcat]
    congr 1
    omega

theorem nodeAtAux_mem {V : Type} : ∀ (cs : List (Tree V)) (a : ℕ) (q : List ℕ) (fb : Tree V),
    Tree.validAux cs a q = true →
    ∃ c ∈ cs, Tree.nodeAtAux fb cs a q = Tree.nodeAt c q ∧ Tree.validPath c q = true := by
  intro cs
  induction cs with
  | nil =>
    intro a q fb h
    simp [Tree.validAux] at h
  | cons c rest ih =>
    intro a q fb h
    cases a with
    | zero => exact ⟨c, List.mem_cons_self c rest, rfl, h⟩
    | succ a =>
      obtain ⟨c', hc', heq, hv⟩ := ih a q fb h
      exact ⟨c', List.mem_cons_of_mem _ hc', heq, hv⟩

theorem CartGood.at_path {A : ℕ → ℤ} : ∀ (q : List ℕ) (t : Tree (ℤ × ℕ)),
    CartGood A t → Tree.validPath t q = true → CartGood A (Tree.nodeAt t q) := by
  intro q
  induction q with
  | nil =>
    intro t ht _
    rw [Tree.nodeAt_nil]
    exact ht
  | cons a q ih =>
    intro t ht hv
    cases t with
    | node v cs =>
      cases v with
      | mk x i =>
        rcases ht.inv with ⟨_, hgood, _, _⟩
        have hv' : Tree.validAux cs a q = true := hv
        obtain ⟨c, hc, heq, hvc⟩ := nodeAtAux_mem cs a q (Tree.node (x, i) cs) hv'
        rw [show Tree.nodeAt (Tree.node (x, i) cs) (a :: q) =
          Tree.nodeAtAux (Tree.node (x, i) cs) cs a q from rfl, heq]
        exact ih c (hgood c hc) hvc

theorem CartGood.rootVal_eq {A : ℕ → ℤ} {t : Tree (ℤ × ℕ)} (h : CartGood A t) :
    rootVal t = A (rootIdx t) := by
  cases t with
  | node v cs =>
    cases v with
    | mk x i => exact h.inv.1

theorem SideInv.ne {i : ℕ} {cs : List (Tree (ℤ × ℕ))} (h : SideInv i cs) :
    ∀ c ∈ cs, rootIdx c ≠ i := by
  intro c hc
  rcases h with h | ⟨c0, h, hne⟩ | ⟨c1, c2, h, h1, h2⟩
  · rw [h] at hc
    cases hc
  · rw [h] at hc
    rw [List.mem_singleton.mp hc]
    exact hne
  · rw [h] at hc
    rcases List.mem_cons.mp hc with hc | hc
    · rw [hc]
      omega
    · rw [List.mem_singleton.mp hc]
      omega

theorem child_inorder_sub {A : ℕ → ℤ} {x : ℤ} {i : ℕ} {cs : List (Tree (ℤ × ℕ))}
    (h : CartGood A (.node (x, i) cs)) {c : Tree (ℤ × ℕ)} (hc : c ∈ cs) :
    inorder c <:+: inorder (Tree.node (x, i) cs) := by
  have hne := SideInv.ne h.inv.2.2.2 c hc
  rw [inorder_eq]
  rcases Nat.lt_or_ge (rootIdx c) i with hlt | hge
  · have hcf : c ∈ cs.filter fun c2 => decide (rootIdx c2 < i) :=
      List.mem_filter.mpr ⟨hc, by simp [hlt]⟩
    have h1 : inorder c <:+:
        ((cs.filter fun c2 => decide (rootIdx c2 < i)).map inorder).flatten :=
      List.infix_of_mem_flatten (List.mem_map_of_mem inorder hcf)
    exact h1.trans (List.prefix_append _ _).isInfix
  · have hlt2 : i < rootIdx c := by omega
    have hcf : c ∈ cs.filter fun c2 => decide (i < rootIdx c2) :=
      List.mem_filter.mpr ⟨hc, by simp [hlt2]⟩
    have h1 : inorder c <:+:
        ((cs.filter fun c2 => decide (i < rootIdx c2)).map inorder).flatten :=
      List.infix_of_mem_flatten (List.mem_map_of_mem inorder hcf)
    exact h1.trans ((List.suffix_cons i _).trans (List.suffix_append _ _)).isInfix

theorem subtree_inorder_sub {A : ℕ → ℤ} : ∀ (q : List ℕ) (t : Tree (ℤ × ℕ)),
    CartGood A t → Tree.validPath t q = true →
    inorder (Tree.nodeAt t q) <:+: inorder t := by
  intro q
  induction q with
  | nil =>
    intro t ht hv
    rw [Tree.nodeAt_nil]
  | cons a q ih =>
    intro t ht hv
    cases t with
    | node v cs =>
      cases v with
      | mk x i =>
        rcases ht.inv with ⟨_, hgood, _, _⟩
        obtain ⟨c, hc, heq, hvc⟩ := nodeAtAux_mem cs a q (Tree.node (x, i) cs) hv
        rw [show Tree.nodeAt (Tree.node (x, i) cs) (a :: q) =
          Tree.nodeAtAux (Tree.node (x, i) cs) cs a q from rfl, heq]
        exact (ih c (hgood c hc) hvc).trans (child_inorder_sub ht hc)

theorem subtree_root_mem {A : ℕ → ℤ} : ∀ (r : List ℕ) (W : Tree (ℤ × ℕ)),
    CartGood A W → Tree.validPath W r = true →
    rootIdx (Tree.nodeAt W r) ∈ inorder W := by
  intro r
  induction r with
  | nil =>
    intro W _ _
    rw [Tree.nodeAt_nil]
    exact rootIdx_mem_inorder W
  | cons a r ih =>
    intro W hW hv
    cases W with
    | node v cs =>
      cases v with
      | mk x i =>
        rcases hW.inv with ⟨_, hgood, _, _⟩
        obtain ⟨c, hc, heq, hvc⟩ := nodeAtAux_mem cs a r (Tree.node (x, i) cs) hv
        rw [show Tree.nodeAt (Tree.node (x, i) cs) (a :: r) =
          Tree.nodeAtAux (Tree.node (x, i) cs) cs a r from rfl, heq]
        exact (child_inorder_sub hW hc).subset (ih c (hgood c hc) hvc)

/-! Membership in an infix of `List.range n` is an interval of positions. -/

theorem infix_range_mem : ∀ (l1 io l2 : List ℕ) (n : ℕ),
    l1 ++ (io ++ l2) = List.range n →
    ∀ j, j ∈ io ↔ (l1.length ≤ j ∧ j < l1.length + io.length) := by
  intro l1 io l2 n h j
  have hget : ∀ m, m < io.length → io.getD m 0 = l1.length + m := by
    intro m hm
    have h1 : (l1 ++ (io ++ l2)).getD (l1.length + m) 0 = io.getD m 0 := by
      rw [getD_append_ge l1 (io ++ l2) (l1.length + m) 0 (by omega)]
      have e : l1.length + m - l1.length = m := by omega
      rw [e, getD_append_of_lt io l2 m 0 hm]
    have hlen : l1.length + (io.length + l2.length) = n := by
      have h2 := congrArg List.length h
      simpa using h2
    rw [h] at h1
    have h2 : (List.range n).getD (l1.length + m) 0 = l1.length + m := by
      rw [List.getD_eq_getElem _ 0 (by rw [List.length_range]; omega)]
      exact List.getElem_range _ _
    rw [h2] at h1
    exact h1.symm
  constructor
  · intro hj
    obtain ⟨m, hm, hjm⟩ := List.mem_iff_getElem.mp hj
    have hg := hget m hm
    rw [List.getD_eq_getElem _ 0 hm] at hg
    omega
  · intro hj
    have hm : j - l1.length < io.length := by omega
    refine List.mem_iff_getElem.mpr ⟨j - l1.length, hm, ?_⟩
    have hg := hget _ hm
    rw [List.getD_eq_getElem _ 0 hm] at hg
    omega

theorem range_split_between (l1 ioL ioR l2 : List ℕ) (i n : ℕ)
    (h : l1 ++ ((ioL ++ i :: ioR) ++ l2) = List.range n) :
    (∀ j ∈ ioL, j < i) ∧ (∀ j ∈ ioR, i < j) := by
  have h1 : l1 ++ (ioL ++ ((i :: ioR) ++ l2)) = List.range n := by
    rw [← h]
    simp [List.append_assoc]
  have h2 : (l1 ++ ioL) ++ ([i] ++ (ioR ++ l2)) = List.range n := by
    rw [← h]
    simp [List.append_assoc]
  have h3 : ((l1 ++ ioL) ++ [i]) ++ (ioR ++ l2) = List.range n := by
    rw [← h]
    simp [List.append_assoc]
  have hmL := infix_range_mem l1 ioL ((i :: ioR) ++ l2) n h1
  have hmI := infix_range_mem (l1 ++ ioL) [i] (ioR ++ l2) n h2
  have hmR := infix_range_mem ((l1 ++ ioL) ++ [i]) ioR l2 n h3
  have hi := (hmI i).mp (List.mem_singleton_self i)
  simp only [List.length_append, List.length_cons, List.length_singleton] at hi hmR
  constructor
  · intro j hj
    have hb := (hmL j).mp hj
    omega
  · intro j hj
    have hb := (hmR j).mp hj
    omega

theorem idOf_snd (t : Tree (ℤ × ℕ)) : (Tree.idOf t).2 = rootIdx t := by
  cases t with
  | node v cs =>
    cases v with
    | mk x i => rfl

/-! `find_path` soundness: a returned path is valid and leads to a node with
the requested stored position. -/

theorem findPathL_sound (j : ℕ) : ∀ (cs : List (Tree (ℤ × ℕ))),
    (∀ c ∈ cs, ∀ p, findPath c j = some p →
      Tree.validPath c p = true ∧ rootIdx (Tree.nodeAt c p) = j) →
    ∀ (a : ℕ) (p : List ℕ), findPathL cs a j = some p →
    ∃ hd p', p = hd :: p' ∧ a ≤ hd ∧ Tree.validAux cs (hd - a) p' = true ∧
      ∀ fb, rootIdx (Tree.nodeAtAux fb cs (hd - a) p') = j := by
  intro cs
  induction cs with
  | nil =>
    intro _ a p h
    simp [findPathL] at h
  | cons c rest ih =>
    intro hcs a p h
    rw [show findPathL (c :: rest) a j = (match findPath c j with
      | some p => some (a :: p) | none => findPathL rest (a + 1) j) from rfl] at h
    rcases hfp : findPath c j with _ | p0
    · rw [hfp] at h
      obtain ⟨hd, p', hp, hle, hvalid, hroot⟩ :=
        ih (fun c hc => hcs c (List.mem_cons_of_mem _ hc)) (a + 1) p h
      refine ⟨hd, p', hp, by omega, ?_, ?_⟩
      · have e : hd - a = (hd - (a + 1)) + 1 := by omega
        rw [e]
        exact hvalid
      · intro fb
        have e : hd - a = (hd - (a + 1)) + 1 := by omega
        rw [e]
        exact hroot fb
    · rw [hfp] at h
      obtain ⟨hv, hr⟩ := hcs c (List.mem_cons_self c rest) p0 hfp
      have hp : p = a :: p0 := by
        cases h
        rfl
      refine ⟨a, p0, hp, Nat.le_refl a, ?_, ?_⟩
      · rw [Nat.sub_self]
        exact hv
      · intro fb
        rw [Nat.sub_self]
        exact hr

theorem findPath_sound : ∀ (t : Tree (ℤ × ℕ)) (j : ℕ) (p : List ℕ),
    findPath t j = some p →
    Tree.validPath t p = true ∧ rootIdx (Tree.nodeAt t p) = j := by
  intro t
  induction t using Tree.indOn with
  | _ v cs ih =>
    intro j p h
    cases v with
    | mk x i =>
      rw [show findPath (Tree.node (x, i) cs) j =
        (if i = j then some [] else findPathL cs 0 j) from rfl] at h
      by_cases hij : i = j
      · rw [if_pos hij] at h
        have hp : p = [] := by
          cases h
          rfl
        subst hp
        refine ⟨Tree.validPath_nil _, ?_⟩
        rw [Tree.nodeAt_nil]
        exact hij
      · rw [if_neg hij] at h
        obtain ⟨hd, p', hp, _, hvalid, hroot⟩ :=
          findPathL_sound j cs (fun c hc => ih c hc j) 0 p h
        subst hp
        rw [Nat.sub_zero] at hvalid hroot
        exact ⟨hvalid, hroot (Tree.node (x, i) cs)⟩

/-! `find_path` completeness: every position in the inorder traversal is
found. -/

theorem findPathL_isSome (j : ℕ) : ∀ (cs : List (Tree (ℤ × ℕ))),
    (∃ c ∈ cs, (findPath c j).isSome) → ∀ a, (findPathL cs a j).isSome := by
  intro cs
  induction cs with
  | nil =>
    intro h a
    obtain ⟨c, hc, _⟩ := h
    cases hc
  | cons c rest ih =>
    intro h a
    rw [show findPathL (c :: rest) a j = (match findPath c j with
      | some p => some (a :: p) | none => findPathL rest (a + 1) j) from rfl]
    rcases hfp : findPath c j with _ | p0
    · obtain ⟨c', hc', hsome⟩ := h
      rcases List.mem_cons.mp hc' with hc' | hc'
      · rw [hc', hfp] at hsome
        cases hsome
      · exact ih ⟨c', hc', hsome⟩ (a + 1)
    · rfl

theorem findPath_isSome : ∀ (t : Tree (ℤ × ℕ)) (j : ℕ),
    j ∈ inorder t → (findPath t j).isSome := by
  intro t
  induction t using Tree.indOn with
  | _ v cs ih =>
    intro j hj
    cases v with
    | mk x i =>
      rw [show findPath (Tree.node (x, i) cs) j =
        (if i = j then some [] else findPathL cs 0 j) from rfl]
      by_cases hij : i = j
      · rw [if_pos hij]
        rfl
      · rw [if_neg hij]
        rw [inorder_eq] at hj
        simp only [List.mem_append, List.mem_cons, List.mem_flatten, List.mem_map] at hj
        rcases hj with ⟨l, ⟨c, hc, hcl⟩, hjl⟩ | hj | ⟨l, ⟨c, hc, hcl⟩, hjl⟩
        · exact findPathL_isSome j cs
            ⟨c, List.mem_of_mem_filter hc, ih c (List.mem_of_mem_filter hc) j (hcl ▸ hjl)⟩ 0
        · exact absurd hj.symm hij
        · exact findPathL_isSome j cs
            ⟨c, List.mem_of_mem_filter hc, ih c (List.mem_of_mem_filter hc) j (hcl ▸ hjl)⟩ 0

/-- `opt_rmq::query_offset` is a correct range-minimum query: it composes
`find_path` on `u` and `v - 1`, the LCA over the Cartesian tree, and returns
the stored position at the LCA, which is an argmin position of `A[u, v)`. -/
theorem optQuery_correct (A : ℕ → ℤ) (n u v : ℕ) (huv : u < v) (hvn : v ≤ n) :
    u ≤ optQuery A n u v ∧ optQuery A n u v < v ∧
      ∀ j, u ≤ j → j < v → A (optQuery A n u v) ≤ A j := by
  have hn : 1 ≤ n := by omega
  obtain ⟨hgood, hio⟩ := cartesianTree_spec A n hn
  have humem : u ∈ inorder (cartesianTree A n) := by
    rw [hio]
    exact List.mem_range.mpr (by omega)
  have hvmem : v - 1 ∈ inorder (cartesianTree A n) := by
    rw [hio]
    exact List.mem_range.mpr (by omega)
  obtain ⟨pu, hpu⟩ := Option.isSome_iff_exists.mp (findPath_isSome _ u humem)
  obtain ⟨pv, hpv⟩ := Option.isSome_iff_exists.mp (findPath_isSome _ (v - 1) hvmem)
  obtain ⟨hpuv, hpuroot⟩ := findPath_sound _ u pu hpu
  obtain ⟨hpvv, hpvroot⟩ := findPath_sound _ (v - 1) pv hpv
  obtain ⟨p, hpdef⟩ : ∃ p, Tree.lcp pu pv = p := ⟨_, rfl⟩
  have hopt : optQuery A n u v = rootIdx (Tree.nodeAt (cartesianTree A n) p) := by
    simp only [optQuery]
    rw [hpu, hpv, Option.getD_some, Option.getD_some]
    rw [Tree.lcaQuery_eq_lcp _ pu pv hpuv hpvv, hpdef]
    exact idOf_snd _
  have hppfx_u : p <+: pu := hpdef ▸ (Tree.lcp_pfx pu pv).1
  have hppfx_v : p <+: pv := hpdef ▸ (Tree.lcp_pfx pu pv).2
  have hpvalid : Tree.validPath (cartesianTree A n) p = true :=
    Tree.validPath_of_pfx _ hpuv hppfx_u
  have hWgood : CartGood A (Tree.nodeAt (cartesianTree A n) p) :=
    CartGood.at_path p _ hgood hpvalid
  obtain ⟨ru, hru⟩ := hppfx_u
  obtain ⟨rv, hrv⟩ := hppfx_v
  have hvru : Tree.validPath (Tree.nodeAt (cartesianTree A n) p) ru = true := by
    rw [← Tree.validPath_append (cartesianTree A n) p ru hpvalid, hru]
    exact hpuv
  have hvrv : Tree.validPath (Tree.nodeAt (cartesianTree A n) p) rv = true := by
    rw [← Tree.validPath_append (cartesianTree A n) p rv hpvalid, hrv]
    exact hpvv
  have humemW : u ∈ inorder (Tree.nodeAt (cartesianTree A n) p) := by
    rw [← hpuroot, ← hru, Tree.nodeAt_append _ p ru hpvalid]
    exact subtree_root_mem ru _ hWgood hvru
  have hvmemW : v - 1 ∈ inorder (Tree.nodeAt (cartesianTree A n) p) := by
    rw [← hpvroot, ← hrv, Tree.nodeAt_append _ p rv hpvalid]
    exact subtree_root_mem rv _ hWgood hvrv
  obtain ⟨l1, l2, hWeq⟩ := subtree_inorder_sub p _ hgood hpvalid
  rw [hio] at hWeq
  have hWeq2 : l1 ++ (inorder (Tree.nodeAt (cartesianTree A n) p) ++ l2) =
      List.range n := by
    rw [← hWeq]
    simp [List.append_assoc]
  have hWmem := infix_range_mem l1 _ l2 n hWeq2
  have hub := (hWmem u).mp humemW
  have hvb := (hWmem (v - 1)).mp hvmemW
  have hcover : ∀ j, u ≤ j → j < v → j ∈ inorder (Tree.nodeAt (cartesianTree A n) p) := by
    intro j h1 h2
    exact (hWmem j).mpr (by omega)
  have hmin : ∀ j, u ≤ j → j < v → A (rootIdx (Tree.nodeAt (cartesianTree A n) p)) ≤ A j := by
    intro j h1 h2
    have h3 := CartGood.min_le hWgood j (hcover j h1 h2)
    rw [CartGood.rootVal_eq hWgood] at h3
    exact h3
  have hbounds : u ≤ rootIdx (Tree.nodeAt (cartesianTree A n) p) ∧
      rootIdx (Tree.nodeAt (cartesianTree A n) p) < v := by
    rcases Tree.lcp_split pu pv with hcase | hcase | ⟨a, b, ru', rv', hab, hpu_eq, hpv_eq⟩
    · rw [hpdef] at hcase
      have hroot_eq : rootIdx (Tree.nodeAt (cartesianTree A n) p) = u := by
        rw [← hcase]
        exact hpuroot
      omega
    · rw [hpdef] at hcase
      have hroot_eq : rootIdx (Tree.nodeAt (cartesianTree A n) p) = v - 1 := by
        rw [← hcase]
        exact hpvroot
      omega
    · rw [hpdef] at hpu_eq hpv_eq
      have hvau : Tree.validPath (Tree.nodeAt (cartesianTree A n) p) (a :: ru') = true := by
        rw [← Tree.validPath_append (cartesianTree A n) p (a :: ru') hpvalid, ← hpu_eq]
        exact hpuv
      have hvbv : Tree.validPath (Tree.nodeAt (cartesianTree A n) p) (b :: rv') = true := by
        rw [← Tree.validPath_append (cartesianTree A n) p (b :: rv') hpvalid, ← hpv_eq]
        exact hpvv
      have hnodeu : Tree.nodeAt (cartesianTree A n) pu =
          Tree.nodeAt (Tree.nodeAt (cartesianTree A n) p) (a :: ru') := by
        rw [hpu_eq, Tree.nodeAt_append _ p (a :: ru') hpvalid]
      have hnodev : Tree.nodeAt (cartesianTree A n) pv =
          Tree.nodeAt (Tree.nodeAt (cartesianTree A n) p) (b :: rv') := by
        rw [hpv_eq, Tree.nodeAt_append _ p (b :: rv') hpvalid]
      rcases hWshape : Tree.nodeAt (cartesianTree A n) p with ⟨⟨x, i⟩, cs⟩
      rw [hWshape] at hWgood hvau hvbv hWeq2 hnodeu hnodev
      rcases hWgood.inv with ⟨_, hchildgood, _, hside⟩
      rcases hside with hcs | ⟨c0, hcs, _⟩ | ⟨c1, c2, hcs, hlt1, hlt2⟩
      · subst hcs
        have h2 : Tree.validAux ([] : List (Tree (ℤ × ℕ))) a ru' = true := hvau
        simp [Tree.validAux] at h2
      · subst hcs
        cases a with
        | zero =>
          cases b with
          | zero => exact absurd rfl hab
          | succ b =>
            have h2 : Tree.validAux ([] : List (Tree (ℤ × ℕ))) b rv' = true := hvbv
            simp [Tree.validAux] at h2
        | succ a =>
          have h2 : Tree.validAux ([] : List (Tree (ℤ × ℕ))) a ru' = true := hvau
          simp [Tree.validAux] at h2
      · subst hcs
        have hioW : inorder (Tree.node (x, i) [c1, c2]) =
            inorder c1 ++ i :: inorder c2 := by
          rw [inorder_eq]
          have hfl : List.filter (fun c => decide (rootIdx c < i)) [c1, c2] = [c1] := by
            simp only [List.filter_cons, List.filter_nil, decide_eq_true_eq]
            rw [if_pos hlt1, if_neg (by omega)]
          have hfr : List.filter (fun c => decide (i < rootIdx c)) [c1, c2] = [c2] := by
            simp only [List.filter_cons, List.filter_nil, decide_eq_true_eq]
            rw [if_neg (by omega), if_pos hlt2]
          simp [hfl, hfr]
        rw [hioW] at hWeq2
        obtain ⟨hL, hR⟩ := range_split_between l1 (inorder c1) (inorder c2) l2 i n hWeq2
        rw [show rootIdx (Tree.node (x, i) [c1, c2]) = i from rfl]
        cases a with
        | zero =>
          have hu_in : u ∈ inorder c1 := by
            rw [← hpuroot, hnodeu, Tree.nodeAt_cons_zero]
            exact subtree_root_mem ru' c1
              (hchildgood c1 (List.mem_cons_self c1 [c2])) hvau
          cases b with
          | zero => exact absurd rfl hab
          | succ b =>
            cases b with
            | zero =>
              have hv_in : v - 1 ∈ inorder c2 := by
                have hvalidc2 : Tree.validPath c2 rv' = true := hvbv
                rw [← hpvroot, hnodev,
                  Tree.nodeAt_cons_succ (x, i) c1 [c2] 0 rv' hvbv,
                  Tree.nodeAt_cons_zero]
                exact subtree_root_mem rv' c2
                  (hchildgood c2 (List.mem_cons_of_mem _ (List.mem_cons_self c2 []))) hvalidc2
              have h1 := hL u hu_in
              have h2 := hR (v - 1) hv_in
              omega
            | succ b =>
              have h2 : Tree.validAux ([] : List (Tree (ℤ × ℕ))) b rv' = true := hvbv
              simp [Tree.validAux] at h2
        | succ a =>
          cases a with
          | zero =>
            have hu_in : u ∈ inorder c2 := by
              have hvalidc1 : Tree.validPath c2 ru' = true := hvau
              rw [← hpuroot, hnodeu,
                Tree.nodeAt_cons_succ (x, i) c1 [c2] 0 ru' hvau,
                Tree.nodeAt_cons_zero]
              exact subtree_root_mem ru' c2
                (hchildgood c2 (List.mem_cons_of_mem _ (List.mem_cons_self c2 []))) hvalidc1
            cases b with
            | zero =>
              have hv_in : v - 1 ∈ inorder c1 := by
                rw [← hpvroot, hnodev, Tree.nodeAt_cons_zero]
                exact subtree_root_mem rv' c1
                  (hchildgood c1 (List.mem_cons_self c1 [c2])) hvbv
              have h1 := hR u hu_in
              have h2 := hL (v - 1) hv_in
              omega
            | succ b =>
              cases b with
              | zero => exact absurd rfl hab
              | succ b =>
                have h2 : Tree.validAux ([] : List (Tree (ℤ × ℕ))) b rv' = true := hvbv
                simp [Tree.validAux] at h2
          | succ a =>
            have h2 : Tree.validAux ([] : List (Tree (ℤ × ℕ))) a ru' = true := hvau
            simp [Tree.validAux] at h2
  rw [hopt]
  exact ⟨hbounds.1, hbounds.2, hmin⟩

/-- C7: for every non-empty input `A` of length `n`, the Cartesian tree built
by `opt_rmq::cartesian_tree` has inorder traversal `0, 1, ..., n-1` (the
stored positions in increasing order), and for every node (i.e. every valid
path into the tree) the minimum of `A` over the positions in that node's
subtree equals the node's own stored value: the node's value is `A` at its
own stored position, that position lies in the subtree, and the value is a
lower bound for `A` over the whole subtree. -/
theorem claim_C7_cartesian_invariants (A : ℕ → ℤ) (n : ℕ) (h : 1 ≤ n) :
    inorder (cartesianTree A n) = List.range n ∧
    ∀ q, Tree.validPath (cartesianTree A n) q = true →
      rootVal (Tree.nodeAt (cartesianTree A n) q) =
        A (rootIdx (Tree.nodeAt (cartesianTree A n) q)) ∧
      rootIdx (Tree.nodeAt (cartesianTree A n) q) ∈
        inorder (Tree.nodeAt (cartesianTree A n) q) ∧
      ∀ j ∈ inorder (Tree.nodeAt (cartesianTree A n) q),
        rootVal (Tree.nodeAt (cartesianTree A n) q) ≤ A j := by
  obtain ⟨hgood, hinorder⟩ := cartesianTree_spec A n h
  refine ⟨hinorder, ?_⟩
  intro q hq
  have hsub := CartGood.at_path q (cartesianTree A n) hgood hq
  exact ⟨hsub.rootVal_eq, rootIdx_mem_inorder _, hsub.min_le⟩

/-- C1: for every RMQ engine (`naive_rmq`, `sparse_rmq`, `pm_rmq` on input
satisfying the ±1 property, `opt_rmq`), every non-empty input sequence `A` of
length `n`, and every query window `0 ≤ u < v ≤ n`, the returned index `i`
satisfies `u ≤ i < v` and `A i` is the minimum value of `A` over `[u, v)`. -/
theorem claim_C1_all_engines_correct (A : ℕ → ℤ) (n u v : ℕ)
    (hn : 1 ≤ n) (huv : u < v) (hvn : v ≤ n) :
    (u ≤ naiveQuery A u v ∧ naiveQuery A u v < v ∧
      ∀ j, u ≤ j → j < v → A (naiveQuery A u v) ≤ A j) ∧
    (u ≤ sparseQuery A u v ∧ sparseQuery A u v < v ∧
      ∀ j, u ≤ j → j < v → A (sparseQuery A u v) ≤ A j) ∧
    (pmCheck A n = true →
      u ≤ pmQuery A n u v ∧ pmQuery A n u v < v ∧
        ∀ j, u ≤ j → j < v → A (pmQuery A n u v) ≤ A j) ∧
    (u ≤ optQuery A n u v ∧ optQuery A n u v < v ∧
      ∀ j, u ≤ j → j < v → A (optQuery A n u v) ≤ A j) :=
  ⟨(naiveQuery_isRMin A u v huv).isMinPos,
   (sparseQuery_isRMin A u v huv).isMinPos,
   fun _ => pmQuery_correct A n u v huv hvn,
   optQuery_correct A n u v huv hvn⟩

theorem claim_C1_all_engines_correct_witness :
    ((1 ≤ 5 ∧ 0 < 5 ∧ 5 ≤ 5) ∧
    (0 ≤ naiveQuery (fun i => [0, 1, 0, 1, 2].getD i 0) 0 5 ∧
      naiveQuery (fun i => [0, 1, 0, 1, 2].getD i 0) 0 5 < 5 ∧
      ∀ j, 0 ≤ j → j < 5 →
        (fun i => ([0, 1, 0, 1, 2] : List ℤ).getD i 0)
          (naiveQuery (fun i => [0, 1, 0, 1, 2].getD i 0) 0 5) ≤
        (fun i => ([0, 1, 0, 1, 2] : List ℤ).getD i 0) j) ∧
    (0 ≤ sparseQuery (fun i => [0, 1, 0, 1, 2].getD i 0) 0 5 ∧
      sparseQuery (fun i => [0, 1, 0, 1, 2].getD i 0) 0 5 < 5 ∧
      ∀ j, 0 ≤ j → j < 5 →
        (fun i => ([0, 1, 0, 1, 2] : List ℤ).getD i 0)
          (sparseQuery (fun i => [0, 1, 0, 1, 2].getD i 0) 0 5) ≤
        (fun i => ([0, 1, 0, 1, 2] : List ℤ).getD i 0) j) ∧
    (pmCheck (fun i => [0, 1, 0, 1, 2].getD i 0) 5 = true →
      0 ≤ pmQuery (fun i => [0, 1, 0, 1, 2].getD i 0) 5 0 5 ∧
      pmQuery (fun i => [0, 1, 0, 1, 2].getD i 0) 5 0 5 < 5 ∧
      ∀ j, 0 ≤ j → j < 5 →
        (fun i => ([0, 1, 0, 1, 2] : List ℤ).getD i 0)
          (pmQuery (fun i => [0, 1, 0, 1, 2].getD i 0) 5 0 5) ≤
        (fun i => ([0, 1, 0, 1, 2] : List ℤ).getD i 0) j) ∧
    (0 ≤ optQuery (fun i => [0, 1, 0, 1, 2].getD i 0) 5 0 5 ∧
      optQuery (fun i => [0, 1, 0, 1, 2].getD i 0) 5 0 5 < 5 ∧
      ∀ j, 0 ≤ j → j < 5 →
        (fun i => ([0, 1, 0, 1, 2] : List ℤ).getD i 0)
          (optQuery (fun i => [0, 1, 0, 1, 2].getD i 0) 5 0 5) ≤
        (fun i => ([0, 1, 0, 1, 2] : List ℤ).getD i 0) j)) :=
  ⟨⟨by decide, by decide, by decide⟩,
   claim_C1_all_engines_correct (fun i => [0, 1, 0, 1, 2].getD i 0) 5 0 5
     (by decide) (by decide) (by decide)⟩

/-- C9: every engine's query is a pure function of the built state: repeated
queries with identical arguments return identical results, and two engines
built over extensionally identical inputs agree on every query. In the
embedding, each engine's behaviour is fully determined by the input sequence
and length, so both parts are congruence facts about the query functions. -/
theorem claim_C9_deterministic (A A' : ℕ → ℤ) (n n' u v : ℕ)
    (hA : ∀ i, A i = A' i) (hn : n = n') :
    (naiveQuery A u v = naiveQuery A u v ∧
     sparseQuery A u v = sparseQuery A u v ∧
     pmQuery A n u v = pmQuery A n u v ∧
     optQuery A n u v = optQuery A n u v) ∧
    (naiveQuery A u v = naiveQuery A' u v ∧
     sparseQuery A u v = sparseQuery A' u v ∧
     pmQuery A n u v = pmQuery A' n' u v ∧
     optQuery A n u v = optQuery A' n' u v) := by
  have hAe : A = A' := funext hA
  subst hAe
  subst hn
  exact ⟨⟨rfl, rfl, rfl, rfl⟩, ⟨rfl, rfl, rfl, rfl⟩⟩

theorem claim_C9_deterministic_witness :
    ((∀ i, (fun k => ([0, 1, 0, 1, 2] : List ℤ).getD k 0) i =
        (fun k => ([0, 1, 0, 1, 2] : List ℤ).getD k 0) i) ∧ (5 : ℕ) = 5) ∧
    ((naiveQuery (fun k => [0, 1, 0, 1, 2].getD k 0) 0 5 =
        naiveQuery (fun k => [0, 1, 0, 1, 2].getD k 0) 0 5 ∧
      sparseQuery (fun k => [0, 1, 0, 1, 2].getD k 0) 0 5 =
        sparseQuery (fun k => [0, 1, 0, 1, 2].getD k 0) 0 5 ∧
      pmQuery (fun k => [0, 1, 0, 1, 2].getD k 0) 5 0 5 =
        pmQuery (fun k => [0, 1, 0, 1, 2].getD k 0) 5 0 5 ∧
      optQuery (fun k => [0, 1, 0, 1, 2].getD k 0) 5 0 5 =
        optQuery (fun k => [0, 1, 0, 1, 2].getD k 0) 5 0 5) ∧
     (naiveQuery (fun k => [0, 1, 0, 1, 2].getD k 0) 0 5 =
        naiveQuery (fun k => [0, 1, 0, 1, 2].getD k 0) 0 5 ∧
      sparseQuery (fun k => [0, 1, 0, 1, 2].getD k 0) 0 5 =
        sparseQuery (fun k => [0, 1, 0, 1, 2].getD k 0) 0 5 ∧
      pmQuery (fun k => [0, 1, 0, 1, 2].getD k 0) 5 0 5 =
        pmQuery (fun k => [0, 1, 0, 1, 2].getD k 0) 5 0 5 ∧
      optQuery (fun k => [0, 1, 0, 1, 2].getD k 0) 5 0 5 =
        optQuery (fun k => [0, 1, 0, 1, 2].getD k 0) 5 0 5)) :=
  ⟨⟨fun _ => rfl, rfl⟩,
   claim_C9_deterministic (fun k => [0, 1, 0, 1, 2].getD k 0)
     (fun k => [0, 1, 0, 1, 2].getD k 0) 5 5 0 5 (fun _ => rfl) rfl⟩

def ex7A : ℕ → ℤ := fun i => ([3, 1, 2, 1, 4, 5] : List ℤ).getD i 0

theorem claim_C7_cartesian_invariants_witness :
    1 ≤ 6 ∧
    (inorder (cartesianTree ex7A 6) = List.range 6 ∧
    ∀ q, Tree.validPath (cartesianTree ex7A 6) q = true →
      rootVal (Tree.nodeAt (cartesianTree ex7A 6) q) =
        ex7A (rootIdx (Tree.nodeAt (cartesianTree ex7A 6) q)) ∧
      rootIdx (Tree.nodeAt (cartesianTree ex7A 6) q) ∈
        inorder (Tree.nodeAt (cartesianTree ex7A 6) q) ∧
      ∀ j ∈ inorder (Tree.nodeAt (cartesianTree ex7A 6) q),
        rootVal (Tree.nodeAt (cartesianTree ex7A 6) q) ≤ ex7A j) :=
  ⟨by decide, claim_C7_cartesian_invariants ex7A 6 (by decide)⟩

end RMQSpec
